import Mathlib

/-!
Verification of the computational-geometry core of the model3d library.

The Go source is shallowly embedded in Lean.  Coordinates are modelled as
exact numbers: `ℚ` where only field operations and comparisons occur, and
`ℝ` where the code takes square roots (`Normalize`).  Go maps keyed by
coordinates are modelled as association lists; the iteration order of a Go
map, which is unspecified, becomes an explicit list argument.  Services the
package consumes from outside the embedded files (the sparse linear
solvers, the SVD) are opaque parameters, per the contracts of section 4.K
of the specification.
-/

namespace Model3D

/-- A three dimensional vector over an arbitrary coordinate field.
`Coord3D` in the source is `V3 ℚ` here (exact stand-in for float64);
claims about `Normalize` use `V3 ℝ`. -/
structure V3 (α : Type) where
  x : α
  y : α
  z : α
  deriving DecidableEq, Repr

/-- Rational coordinates, the default model of the source type `Coord3D`. -/
abbrev Coord3D := V3 ℚ

namespace V3

variable {α : Type} [Field α]

/-- Componentwise addition, `Coord3D.Add` in the source. -/
def add (a b : V3 α) : V3 α := ⟨a.x + b.x, a.y + b.y, a.z + b.z⟩

/-- Componentwise subtraction, `Coord3D.Sub` in the source. -/
def sub (a b : V3 α) : V3 α := ⟨a.x - b.x, a.y - b.y, a.z - b.z⟩

/-- Scalar multiplication, `Coord3D.Scale` in the source. -/
def scale (a : V3 α) (s : α) : V3 α := ⟨a.x * s, a.y * s, a.z * s⟩

/-- Dot product, `Coord3D.Dot` in the source. -/
def dot (a b : V3 α) : α := a.x * b.x + a.y * b.y + a.z * b.z

/-- Cross product, `Coord3D.Cross` in the source. -/
def cross (a b : V3 α) : V3 α :=
  ⟨a.y * b.z - a.z * b.y, a.z * b.x - a.x * b.z, a.x * b.y - a.y * b.x⟩

/-- Zero vector, the Go zero value of `Coord3D`. -/
def zero : V3 α := ⟨0, 0, 0⟩

instance : Inhabited (V3 α) := ⟨zero⟩

end V3

/-- A triangle: an ordered triple of vertices, source type `Triangle`. -/
structure Tri (α : Type) where
  p0 : V3 α
  p1 : V3 α
  p2 : V3 α
  deriving DecidableEq, Repr

/-- The triangle type over rational coordinates. -/
abbrev Triangle := Tri ℚ

namespace Tri

variable {α : Type}

/-- The vertex list of a triangle in order. -/
def vertices (t : Tri α) : List (V3 α) := [t.p0, t.p1, t.p2]

/-- Vertex membership in a triangle. -/
def containsVertex [DecidableEq α] (t : Tri α) (c : V3 α) : Bool :=
  c = t.p0 || c = t.p1 || c = t.p2

/-- The three directed edges `(t[i], t[(i+1)%3])` enumerated by
`NeedsRepair`. -/
def edgeList (t : Tri α) : List (V3 α × V3 α) :=
  [(t.p0, t.p1), (t.p1, t.p2), (t.p2, t.p0)]

end Tri

/-- Modelled from the spec: a `Mesh` owns a collection of triangles;
two structurally equal triangles may coexist (distinct Go pointers), so the
model is a list read as a multiset.  The file `mesh.go` defining the
struct is not part of the sources under review; `mesh_ops.go` is. -/
abbrev Mesh := List Triangle

namespace Mesh

/-- Modelled from the spec: `Mesh.Find(p1, p2)` returns the triangles
incident on the edge, i.e. those containing both `p1` and `p2` as
vertices. -/
def find2 (m : Mesh) (a b : Coord3D) : List Triangle :=
  m.filter (fun t => t.containsVertex a && t.containsVertex b)

/-- Embedding of `Mesh.NeedsRepair` (mesh_ops.go): scan every triangle and
each of its three edges; report `true` as soon as an edge is found whose
`Find` count differs from two. -/
def NeedsRepair (m : Mesh) : Bool :=
  m.any (fun t => t.edgeList.any (fun e => (m.find2 e.1 e.2).length ≠ 2))

end Mesh

/-- Embedding of the power-of-two scan at the top of `BuildAutomaticUVMap`
(parameterization.go): `foundPower` is true iff `1 << i == resolution` for
some `0 ≤ i < 32`.  Go `int` is modelled by `ℤ`. -/
def buildAutomaticUVMapFoundPower (resolution : ℤ) : Bool :=
  (List.range 32).any (fun i => (2 ^ i : ℤ) = resolution)

/-- Embedding of the guard of `BuildAutomaticUVMap`: the function panics,
before touching the mesh, exactly when the scan fails. -/
def buildAutomaticUVMapPanics (resolution : ℤ) : Bool :=
  !buildAutomaticUVMapFoundPower resolution

/-- C10: `BuildAutomaticUVMap` panics exactly when its resolution argument
is not of the form `1 << i` for some `0 ≤ i < 32`; in particular zero,
negative and non-power values are rejected, and such powers of two pass. -/
theorem c10_buildAutomaticUVMap_power_check (resolution : ℤ) :
    buildAutomaticUVMapPanics resolution = true ↔
      ¬ ∃ i : ℕ, i < 32 ∧ resolution = 2 ^ i := by
  unfold buildAutomaticUVMapPanics buildAutomaticUVMapFoundPower
  simp [List.any_eq_true, List.mem_range]
  constructor
  · intro h i hi he
    exact absurd he.symm (h i hi)
  · intro h i hi he
    exact h i hi he.symm

/-- The pair `(a, b)` is an edge of the mesh: some triangle of `m` lists it
among its three (directed) edges. -/
def Mesh.IsEdgeOf (m : Mesh) (a b : Coord3D) : Prop :=
  ∃ t ∈ m, (a, b) ∈ t.edgeList

/-- The number of triangles of `m` incident to the unordered pair
`{a, b}`, counting a triangle once for each time it occurs in the mesh
multiset. -/
def Mesh.edgeIncidence (m : Mesh) (a b : Coord3D) : ℕ :=
  m.countP (fun t => decide (a ∈ t.vertices) && decide (b ∈ t.vertices))

theorem Tri.containsVertex_eq_mem (t : Triangle) (c : Coord3D) :
    t.containsVertex c = decide (c ∈ t.vertices) := by
  simp [Tri.containsVertex, Tri.vertices, Bool.or_assoc]

theorem Mesh.find2_length (m : Mesh) (a b : Coord3D) :
    (m.find2 a b).length = m.edgeIncidence a b := by
  rw [Mesh.find2, Mesh.edgeIncidence, ← List.countP_eq_length_filter]
  apply List.countP_congr
  intro t _
  simp [Tri.containsVertex_eq_mem]

/-- C6: `Mesh.NeedsRepair` returns `true` precisely when some edge of some
triangle of the mesh is incident to a number of triangles different from
two. -/
theorem c6_needsRepair_iff (m : Mesh) :
    m.NeedsRepair = true ↔
      ∃ a b : Coord3D, m.IsEdgeOf a b ∧ m.edgeIncidence a b ≠ 2 := by
  unfold Mesh.NeedsRepair
  simp only [List.any_eq_true, decide_eq_true_eq, Mesh.find2_length]
  constructor
  · rintro ⟨t, ht, e, he, hcount⟩
    exact ⟨e.1, e.2, ⟨t, ht, by simpa using he⟩, hcount⟩
  · rintro ⟨a, b, ⟨t, ht, he⟩, hcount⟩
    exact ⟨t, ht, (a, b), he, hcount⟩

section FastMaps

/-!
Embedding of the hybrid containers of `fast_maps.go`.  All members of the
family (`CoordMap`, `CoordToCoord`, `CoordToFaces`, `EdgeMap`, ...) are
instances of one template; the embedding is generic in the key type `K`
(instantiated by `Coord3D` or by an edge `Coord3D × Coord3D`), the value
type `V`, and the fast hash function.  A Go `map` is modelled as an
association list whose keys are pairwise distinct; the unspecified
iteration order of `range` does not occur in `Store`/`Load`/`Delete`/`Len`.
-/

variable {K V : Type} [DecidableEq K]

/-- Lookup in an association list, the read of `goMap[k]`. -/
def alLookup (l : List (K × V)) (k : K) : Option V :=
  match l with
  | [] => none
  | p :: rest => if p.1 = k then some p.2 else alLookup rest k

/-- Write `goMap[k] = v`: replace the binding if the key is present,
otherwise add a new one. -/
def alStore (l : List (K × V)) (k : K) (v : V) : List (K × V) :=
  match l with
  | [] => [(k, v)]
  | p :: rest => if p.1 = k then (k, v) :: rest else p :: alStore rest k v

/-- The Go built-in `delete(goMap, k)`. -/
def alDelete (l : List (K × V)) (k : K) : List (K × V) :=
  match l with
  | [] => []
  | p :: rest => if p.1 = k then rest else p :: alDelete rest k

/-- Key list of an association list. -/
def alKeys (l : List (K × V)) : List K := l.map Prod.fst

/-- State of a container of the `fast_maps.go` family: the fast path keyed
by the 64-bit hash, or the slow path entered after the first collision.
Exactly one of the two Go fields is non-nil, which the sum captures. -/
inductive CoordMap (K V : Type) where
  | fast (cells : List (ℕ × K × V))
  | slow (entries : List (K × V))

namespace CoordMap

variable (hash : K → ℕ)

/-- Embedding of `NewCoordMap`: an empty fast map. -/
def NewCoordMap : CoordMap K V := .fast []

/-- Embedding of `CoordMap.fastToSlow`: rebuild the slow map from the
cells.  Under the fast-map invariant all cell keys are distinct, so the
Go iteration order only permutes a duplicate-free map; the model keeps
the list order. -/
def fastToSlow (cells : List (ℕ × K × V)) : List (K × V) :=
  cells.map Prod.snd

/-- Embedding of `CoordMap.Len`. -/
def Len : CoordMap K V → ℕ
  | .fast cells => cells.length
  | .slow entries => entries.length

/-- Embedding of `CoordMap.Load`; the Go pair `(value, ok)` with a zero
value on failure is observationally an `Option`. -/
def Load (m : CoordMap K V) (key : K) : Option V :=
  match m with
  | .fast cells =>
    match alLookup cells (hash key) with
    | some cell => if cell.1 = key then some cell.2 else none
    | none => none
  | .slow entries => alLookup entries key

/-- Embedding of `CoordMap.Store`: on a fast-path hash collision with a
distinct key the container demotes itself to the slow map and stores
there; otherwise it overwrites the cell of the hash. -/
def Store (m : CoordMap K V) (key : K) (value : V) : CoordMap K V :=
  match m with
  | .fast cells =>
    match alLookup cells (hash key) with
    | some cell =>
      if cell.1 = key then .fast (alStore cells (hash key) (key, value))
      else .slow (alStore (fastToSlow cells) key value)
    | none => .fast (alStore cells (hash key) (key, value))
  | .slow entries => .slow (alStore entries key value)

/-- Embedding of `CoordMap.Delete`: the fast path deletes only when the
cell under the hash holds exactly the requested key. -/
def Delete (m : CoordMap K V) (key : K) : CoordMap K V :=
  match m with
  | .fast cells =>
    match alLookup cells (hash key) with
    | some cell => if cell.1 = key then .fast (alDelete cells (hash key)) else .fast cells
    | none => .fast cells
  | .slow entries => .slow (alDelete entries key)

/-- Abstraction to the reference key-value map. -/
def toRef : CoordMap K V → List (K × V)
  | .fast cells => fastToSlow cells
  | .slow entries => entries

/-- Well-formedness: hashes are distinct Go-map keys and every cell is
stored under the hash of its key; slow-map keys are distinct. -/
def Inv : CoordMap K V → Prop
  | .fast cells =>
      (cells.map Prod.fst).Nodup ∧ ∀ c ∈ cells, hash c.2.1 = c.1
  | .slow entries => (alKeys entries).Nodup

end CoordMap

theorem mem_alKeys_cons {p : K × V} {rest : List (K × V)} {k : K} :
    k ∈ alKeys (p :: rest) ↔ k = p.1 ∨ k ∈ alKeys rest := by
  simp [alKeys]

theorem alLookup_eq_none_iff {l : List (K × V)} {k : K} :
    alLookup l k = none ↔ k ∉ alKeys l := by
  induction l with
  | nil => simp [alLookup, alKeys]
  | cons p rest ih =>
    by_cases hp : p.1 = k
    · constructor
      · intro h
        rw [alLookup, if_pos hp] at h
        exact absurd h (by simp)
      · intro h
        exact absurd (mem_alKeys_cons.mpr (Or.inl hp.symm)) h
    · rw [alLookup, if_neg hp, ih]
      constructor
      · intro h hmem
        rcases mem_alKeys_cons.mp hmem with h1 | h1
        · exact hp h1.symm
        · exact h h1
      · intro h hmem
        exact h (mem_alKeys_cons.mpr (Or.inr hmem))

theorem alLookup_isSome_of_mem {l : List (K × V)} {k : K} (h : k ∈ alKeys l) :
    ∃ v, alLookup l k = some v := by
  rcases ho : alLookup l k with _ | v
  · exact absurd (alLookup_eq_none_iff.mp ho) (not_not_intro h)
  · exact ⟨v, rfl⟩

theorem alStore_of_not_mem {l : List (K × V)} {k : K} (v : V) (h : k ∉ alKeys l) :
    alStore l k v = l ++ [(k, v)] := by
  induction l with
  | nil => simp [alStore]
  | cons p rest ih =>
    have h1 : ¬ p.1 = k := fun he => h (mem_alKeys_cons.mpr (Or.inl he.symm))
    have h2 : k ∉ alKeys rest := fun he => h (mem_alKeys_cons.mpr (Or.inr he))
    rw [alStore, if_neg h1, ih h2]
    rfl

theorem alDelete_of_not_mem {l : List (K × V)} {k : K} (h : k ∉ alKeys l) :
    alDelete l k = l := by
  induction l with
  | nil => simp [alDelete]
  | cons p rest ih =>
    have h1 : ¬ p.1 = k := fun he => h (mem_alKeys_cons.mpr (Or.inl he.symm))
    have h2 : k ∉ alKeys rest := fun he => h (mem_alKeys_cons.mpr (Or.inr he))
    rw [alDelete, if_neg h1, ih h2]

theorem alKeys_alStore (l : List (K × V)) (k : K) (v : V) :
    alKeys (alStore l k v) = if k ∈ alKeys l then alKeys l else alKeys l ++ [k] := by
  induction l with
  | nil => simp [alStore, alKeys]
  | cons p rest ih =>
    by_cases hp : p.1 = k
    · simp [alStore, alKeys, hp]
    · have hkp : ¬ k = p.1 := fun h => hp h.symm
      by_cases hk : k ∈ alKeys rest
      · rw [if_pos (mem_alKeys_cons.mpr (Or.inr hk))]
        have := ih
        rw [if_pos hk] at this
        simp only [alStore, if_neg hp, alKeys, List.map_cons]
        rw [show List.map Prod.fst (alStore rest k v) = alKeys (alStore rest k v)
          from rfl, this]
        rfl
      · rw [if_neg (fun hmem => (mem_alKeys_cons.mp hmem).elim hkp hk)]
        have := ih
        rw [if_neg hk] at this
        simp only [alStore, if_neg hp, alKeys, List.map_cons]
        rw [show List.map Prod.fst (alStore rest k v) = alKeys (alStore rest k v)
          from rfl, this]
        rfl

theorem alKeys_nodup_alStore {l : List (K × V)} {k : K} (v : V)
    (h : (alKeys l).Nodup) : (alKeys (alStore l k v)).Nodup := by
  rw [alKeys_alStore]
  by_cases hk : k ∈ alKeys l
  · simpa [hk] using h
  · rw [if_neg hk]
    refine List.Nodup.append h (List.nodup_singleton k) ?_
    intro x hx hxk
    rw [List.mem_singleton] at hxk
    exact hk (hxk ▸ hx)

theorem alDelete_sublist (l : List (K × V)) (k : K) :
    List.Sublist (alDelete l k) l := by
  induction l with
  | nil => simp [alDelete]
  | cons p rest ih =>
    by_cases hp : p.1 = k
    · simpa [alDelete, hp] using List.sublist_cons_self p rest
    · simpa [alDelete, hp] using ih.cons₂ p

theorem alKeys_nodup_alDelete {l : List (K × V)} (k : K)
    (h : (alKeys l).Nodup) : (alKeys (alDelete l k)).Nodup :=
  (((alDelete_sublist l k).map Prod.fst).nodup h)

theorem mem_alStore {l : List (K × V)} {k : K} {v : V} {c : K × V}
    (h : c ∈ alStore l k v) : c ∈ l ∨ c = (k, v) := by
  induction l with
  | nil => simpa [alStore] using h
  | cons p rest ih =>
    by_cases hp : p.1 = k
    · rcases (by simpa [alStore, hp] using h) with h1 | h1
      · exact Or.inr h1
      · exact Or.inl (List.mem_cons_of_mem p h1)
    · rcases (by simpa [alStore, hp] using h) with h1 | h1
      · exact Or.inl (h1 ▸ List.mem_cons_self p rest)
      · rcases ih h1 with h2 | h2
        · exact Or.inl (List.mem_cons_of_mem p h2)
        · exact Or.inr h2

namespace CoordMap

variable {hash : K → ℕ}

/-- Under the fast-map invariant, a member key of the rebuilt slow map is
found by the hash probe. -/
theorem mem_fastToSlow_lookup {cells : List (ℕ × K × V)} {key : K}
    (hnd : (cells.map Prod.fst).Nodup) (hh : ∀ c ∈ cells, hash c.2.1 = c.1)
    (hmem : key ∈ alKeys (fastToSlow cells)) :
    ∃ v, alLookup cells (hash key) = some (key, v) := by
  induction cells with
  | nil => simp [fastToSlow, alKeys] at hmem
  | cons c rest ih =>
    obtain ⟨h0, k0, v0⟩ := c
    have hk0 : hash k0 = h0 := hh _ (List.mem_cons_self _ _)
    rcases (by simpa [fastToSlow, alKeys] using hmem) with h1 | h1
    · subst h1
      exact ⟨v0, by simp [alLookup, hk0]⟩
    · have hrest : key ∈ alKeys (fastToSlow rest) := by
        simpa [fastToSlow, alKeys] using h1
      obtain ⟨v, hv⟩ := ih (List.nodup_cons.mp hnd).2
        (fun c hc => hh c (List.mem_cons_of_mem _ hc)) hrest
      refine ⟨v, ?_⟩
      have hne : h0 ≠ hash key := by
        intro he
        have : hash key ∈ rest.map Prod.fst := by
          have := @alLookup_eq_none_iff _ _ _ rest (hash key)
          rcases ho : alLookup rest (hash key) with _ | w
          · rw [ho] at hv; exact absurd hv (by simp)
          · exact by
              by_contra hnot
              rw [alLookup_eq_none_iff.mpr (by simpa [alKeys] using hnot)] at hv
              exact absurd hv (by simp)
        exact (List.nodup_cons.mp hnd).1 (he ▸ this)
      simpa [alLookup, hne] using hv

/-- Under the fast-map invariant, a successful equal-key hash probe agrees
with lookup in the rebuilt slow map. -/
theorem lookup_fastToSlow_of_probe {cells : List (ℕ × K × V)} {key : K} {v : V}
    (hh : ∀ c ∈ cells, hash c.2.1 = c.1)
    (hp : alLookup cells (hash key) = some (key, v)) :
    alLookup (fastToSlow cells) key = some v := by
  induction cells with
  | nil => simp [alLookup] at hp
  | cons c rest ih =>
    obtain ⟨h0, k0, v0⟩ := c
    have hk0 : hash k0 = h0 := hh _ (List.mem_cons_self _ _)
    by_cases he : h0 = hash key
    · have : (k0, v0) = (key, v) := by simpa [alLookup, he] using hp
      obtain ⟨rfl, rfl⟩ := Prod.mk.injEq .. ▸ this
      simp [fastToSlow, alLookup]
    · have hne : k0 ≠ key := fun h => he (by rw [← hk0, h])
      have := ih (fun c hc => hh c (List.mem_cons_of_mem _ hc))
        (by simpa [alLookup, he] using hp)
      simpa [fastToSlow, alLookup, hne] using this

/-- If the hash probe misses, or hits a different key, the requested key is
absent from the rebuilt slow map. -/
theorem not_mem_fastToSlow {cells : List (ℕ × K × V)} {key : K}
    (hnd : (cells.map Prod.fst).Nodup) (hh : ∀ c ∈ cells, hash c.2.1 = c.1)
    (hp : ∀ v, alLookup cells (hash key) ≠ some (key, v)) :
    key ∉ alKeys (fastToSlow cells) := by
  intro hmem
  obtain ⟨v, hv⟩ := mem_fastToSlow_lookup hnd hh hmem
  exact hp v hv

/-- Replacing the cell found by an equal-key probe commutes with the
rebuild of the slow map. -/
theorem fastToSlow_alStore {cells : List (ℕ × K × V)} {key : K} {v0 : V}
    (hh : ∀ c ∈ cells, hash c.2.1 = c.1)
    (hp : alLookup cells (hash key) = some (key, v0)) (value : V) :
    fastToSlow (alStore cells (hash key) (key, value)) =
      alStore (fastToSlow cells) key value := by
  induction cells with
  | nil => simp [alLookup] at hp
  | cons c rest ih =>
    obtain ⟨h0, k0, v1⟩ := c
    have hk0 : hash k0 = h0 := hh _ (List.mem_cons_self _ _)
    by_cases he : h0 = hash key
    · have : (k0, v1) = (key, v0) := by simpa [alLookup, he] using hp
      obtain ⟨rfl, rfl⟩ := Prod.mk.injEq .. ▸ this
      simp [alStore, fastToSlow, he]
    · have hne : k0 ≠ key := fun h => he (by rw [← hk0, h])
      have := ih (fun c hc => hh c (List.mem_cons_of_mem _ hc))
        (by simpa [alLookup, he] using hp)
      simp [alStore, fastToSlow, he, Ne.symm he, hne]
      exact this

/-- Deleting the cell found by an equal-key probe commutes with the rebuild
of the slow map. -/
theorem fastToSlow_alDelete {cells : List (ℕ × K × V)} {key : K} {v0 : V}
    (hh : ∀ c ∈ cells, hash c.2.1 = c.1)
    (hp : alLookup cells (hash key) = some (key, v0)) :
    fastToSlow (alDelete cells (hash key)) = alDelete (fastToSlow cells) key := by
  induction cells with
  | nil => simp [alLookup] at hp
  | cons c rest ih =>
    obtain ⟨h0, k0, v1⟩ := c
    have hk0 : hash k0 = h0 := hh _ (List.mem_cons_self _ _)
    by_cases he : h0 = hash key
    · have : (k0, v1) = (key, v0) := by simpa [alLookup, he] using hp
      obtain ⟨rfl, rfl⟩ := Prod.mk.injEq .. ▸ this
      simp [alDelete, fastToSlow, he]
    · have hne : k0 ≠ key := fun h => he (by rw [← hk0, h])
      have := ih (fun c hc => hh c (List.mem_cons_of_mem _ hc))
        (by simpa [alLookup, he] using hp)
      simp [alDelete, fastToSlow, he, Ne.symm he, hne]
      exact this

/-- The rebuilt slow map of an invariant-respecting fast map has distinct
keys. -/
theorem fastToSlow_nodup {cells : List (ℕ × K × V)}
    (hnd : (cells.map Prod.fst).Nodup) (hh : ∀ c ∈ cells, hash c.2.1 = c.1) :
    (alKeys (fastToSlow cells)).Nodup := by
  induction cells with
  | nil => simp [fastToSlow, alKeys]
  | cons c rest ih =>
    obtain ⟨h0, k0, v0⟩ := c
    have hk0 : hash k0 = h0 := hh _ (List.mem_cons_self _ _)
    have hrest := ih (List.nodup_cons.mp hnd).2
      (fun c hc => hh c (List.mem_cons_of_mem _ hc))
    refine List.nodup_cons.mpr ⟨?_, by simpa [fastToSlow, alKeys] using hrest⟩
    intro hmem
    obtain ⟨v, hv⟩ := @mem_fastToSlow_lookup _ _ _ hash _ _
      (List.nodup_cons.mp hnd).2 (fun c hc => hh c (List.mem_cons_of_mem _ hc))
      (by simpa [fastToSlow, alKeys] using hmem)
    have : hash k0 ∈ rest.map Prod.fst := by
      by_contra hnot
      rw [alLookup_eq_none_iff.mpr (by simpa [alKeys] using hnot)] at hv
      exact absurd hv (by simp)
    exact (List.nodup_cons.mp hnd).1 (hk0 ▸ this)

theorem mem_alKeys_of_lookup {l : List (K × V)} {k : K} {v : V}
    (h : alLookup l k = some v) : k ∈ alKeys l := by
  by_contra hnot
  rw [alLookup_eq_none_iff.mpr hnot] at h
  exact absurd h (by simp)

/-- One step of the refinement: `Store` preserves the invariant and
commutes with the abstraction to the reference map. -/
theorem Store_sim {m : CoordMap K V} (hinv : Inv hash m) (key : K) (value : V) :
    Inv hash (Store hash m key value) ∧
      toRef (Store hash m key value) = alStore (toRef m) key value := by
  cases m with
  | slow entries =>
    exact ⟨alKeys_nodup_alStore _ hinv, rfl⟩
  | fast cells =>
    obtain ⟨hnd, hh⟩ := hinv
    rcases hprobe : alLookup cells (hash key) with _ | cell
    · have hstep : Store hash (CoordMap.fast cells) key value =
          .fast (alStore cells (hash key) (key, value)) := by
        simp [Store, hprobe]
      have hmiss : hash key ∉ alKeys cells := alLookup_eq_none_iff.mp hprobe
      have hmiss2 : key ∉ alKeys (fastToSlow cells) :=
        not_mem_fastToSlow hnd hh (fun v hv => by rw [hprobe] at hv; exact absurd hv (by simp))
      rw [hstep]
      constructor
      · show ((alStore cells (hash key) (key, value)).map Prod.fst).Nodup ∧ _
        rw [alStore_of_not_mem _ hmiss]
        constructor
        · rw [List.map_append]
          refine List.Nodup.append hnd (by simp) ?_
          intro x hx hxk
          rw [List.map_singleton, List.mem_singleton] at hxk
          have hxe : x = hash key := hxk
          exact hmiss (hxe ▸ hx)
        · intro c hc
          rcases List.mem_append.mp hc with hc | hc
          · exact hh c hc
          · rw [List.mem_singleton.mp hc]
      · show fastToSlow (alStore cells (hash key) (key, value)) =
          alStore (fastToSlow cells) key value
        rw [alStore_of_not_mem _ hmiss2, alStore_of_not_mem _ hmiss]
        simp [fastToSlow]
    · by_cases hkey : cell.1 = key
      · have hp2 : alLookup cells (hash key) = some (key, cell.2) := by
          rw [hprobe]
          exact congrArg some (Prod.ext hkey rfl)
        have hstep : Store hash (CoordMap.fast cells) key value =
            .fast (alStore cells (hash key) (key, value)) := by
          simp [Store, hprobe, hkey]
        have hhit : hash key ∈ alKeys cells := mem_alKeys_of_lookup hprobe
        rw [hstep]
        constructor
        · show ((alStore cells (hash key) (key, value)).map Prod.fst).Nodup ∧ _
          constructor
          · rw [show (alStore cells (hash key) (key, value)).map Prod.fst =
              alKeys (alStore cells (hash key) (key, value)) from rfl]
            rw [alKeys_alStore, if_pos hhit]
            exact hnd
          · intro c hc
            rcases mem_alStore hc with hc | hc
            · exact hh c hc
            · rw [hc]
        · show fastToSlow (alStore cells (hash key) (key, value)) =
            alStore (fastToSlow cells) key value
          rw [fastToSlow_alStore hh hp2 value]
      · have hstep : Store hash (CoordMap.fast cells) key value =
            .slow (alStore (fastToSlow cells) key value) := by
          simp [Store, hprobe, hkey]
        rw [hstep]
        exact ⟨alKeys_nodup_alStore _ (fastToSlow_nodup hnd hh), rfl⟩

/-- One step of the refinement: `Delete` preserves the invariant and
commutes with the abstraction to the reference map. -/
theorem Delete_sim {m : CoordMap K V} (hinv : Inv hash m) (key : K) :
    Inv hash (Delete hash m key) ∧
      toRef (Delete hash m key) = alDelete (toRef m) key := by
  cases m with
  | slow entries =>
    exact ⟨alKeys_nodup_alDelete _ hinv, rfl⟩
  | fast cells =>
    obtain ⟨hnd, hh⟩ := hinv
    rcases hprobe : alLookup cells (hash key) with _ | cell
    · have hstep : Delete hash (CoordMap.fast cells) key = .fast cells := by
        simp [Delete, hprobe]
      have hmiss2 : key ∉ alKeys (fastToSlow cells) :=
        not_mem_fastToSlow hnd hh (fun v hv => by rw [hprobe] at hv; exact absurd hv (by simp))
      rw [hstep]
      refine ⟨⟨hnd, hh⟩, ?_⟩
      show fastToSlow cells = alDelete (fastToSlow cells) key
      rw [alDelete_of_not_mem hmiss2]
    · by_cases hkey : cell.1 = key
      · have hp2 : alLookup cells (hash key) = some (key, cell.2) := by
          rw [hprobe]
          exact congrArg some (Prod.ext hkey rfl)
        have hstep : Delete hash (CoordMap.fast cells) key =
            .fast (alDelete cells (hash key)) := by
          simp [Delete, hprobe, hkey]
        rw [hstep]
        constructor
        · exact ⟨((alDelete_sublist cells (hash key)).map Prod.fst).nodup hnd,
            fun c hc => hh c ((alDelete_sublist cells (hash key)).mem hc)⟩
        · show fastToSlow (alDelete cells (hash key)) = alDelete (fastToSlow cells) key
          rw [fastToSlow_alDelete hh hp2]
      · have hmiss2 : key ∉ alKeys (fastToSlow cells) := by
          refine not_mem_fastToSlow hnd hh (fun v hv => ?_)
          rw [hprobe] at hv
          have hcv : cell = (key, v) := by simpa using hv
          exact hkey (by rw [hcv])
        have hstep : Delete hash (CoordMap.fast cells) key = .fast cells := by
          simp [Delete, hprobe, hkey]
        rw [hstep]
        refine ⟨⟨hnd, hh⟩, ?_⟩
        show fastToSlow cells = alDelete (fastToSlow cells) key
        rw [alDelete_of_not_mem hmiss2]

/-- The observation `Load` agrees with lookup in the reference map. -/
theorem Load_sim {m : CoordMap K V} (hinv : Inv hash m) (key : K) :
    Load hash m key = alLookup (toRef m) key := by
  cases m with
  | slow entries => rfl
  | fast cells =>
    obtain ⟨hnd, hh⟩ := hinv
    rcases hprobe : alLookup cells (hash key) with _ | cell
    · have hstep : Load hash (CoordMap.fast cells) key = none := by
        simp [Load, hprobe]
      have hmiss2 : key ∉ alKeys (fastToSlow cells) :=
        not_mem_fastToSlow hnd hh (fun v hv => by rw [hprobe] at hv; exact absurd hv (by simp))
      rw [hstep]
      exact (alLookup_eq_none_iff.mpr hmiss2).symm
    · by_cases hkey : cell.1 = key
      · have hp2 : alLookup cells (hash key) = some (key, cell.2) := by
          rw [hprobe]
          exact congrArg some (Prod.ext hkey rfl)
        have hstep : Load hash (CoordMap.fast cells) key = some cell.2 := by
          simp [Load, hprobe, hkey]
        rw [hstep]
        exact (lookup_fastToSlow_of_probe hh hp2).symm
      · have hmiss2 : key ∉ alKeys (fastToSlow cells) := by
          refine not_mem_fastToSlow hnd hh (fun v hv => ?_)
          rw [hprobe] at hv
          have hcv : cell = (key, v) := by simpa using hv
          exact hkey (by rw [hcv])
        have hstep : Load hash (CoordMap.fast cells) key = none := by
          simp [Load, hprobe, hkey]
        rw [hstep]
        exact (alLookup_eq_none_iff.mpr hmiss2).symm

/-- The observation `Len` agrees with the size of the reference map. -/
theorem Len_sim (m : CoordMap K V) : Len m = (toRef m).length := by
  cases m with
  | slow entries => rfl
  | fast cells => simp [Len, toRef, fastToSlow]

end CoordMap

/-- A mutation of a map of the family; `Load` and `Len` are the read-only
observations. -/
inductive MapOp (K V : Type) where
  | store (key : K) (value : V)
  | delete (key : K)

/-- Run a sequence of mutations on a fresh container of the family. -/
def CoordMap.runOps (hash : K → ℕ) (ops : List (MapOp K V)) : CoordMap K V :=
  ops.foldl
    (fun m op =>
      match op with
      | .store k v => CoordMap.Store hash m k v
      | .delete k => CoordMap.Delete hash m k)
    CoordMap.NewCoordMap

/-- Run the same sequence on the standard reference key-value map. -/
def refRunOps (ops : List (MapOp K V)) : List (K × V) :=
  ops.foldl
    (fun l op =>
      match op with
      | .store k v => alStore l k v
      | .delete k => alDelete l k)
    []

theorem CoordMap.runOps_sim (hash : K → ℕ) (ops : List (MapOp K V)) :
    CoordMap.Inv hash (CoordMap.runOps hash ops) ∧
      CoordMap.toRef (CoordMap.runOps hash ops) = refRunOps ops := by
  suffices h : ∀ (m : CoordMap K V) (l : List (K × V)),
      CoordMap.Inv hash m → CoordMap.toRef m = l →
      CoordMap.Inv hash (ops.foldl
        (fun m op =>
          match op with
          | .store k v => CoordMap.Store hash m k v
          | .delete k => CoordMap.Delete hash m k) m) ∧
      CoordMap.toRef (ops.foldl
        (fun m op =>
          match op with
          | .store k v => CoordMap.Store hash m k v
          | .delete k => CoordMap.Delete hash m k) m) =
      (ops.foldl
        (fun l op =>
          match op with
          | .store k v => alStore l k v
          | .delete k => alDelete l k) l) by
    exact h CoordMap.NewCoordMap [] (by constructor <;> simp [CoordMap.NewCoordMap]) rfl
  induction ops with
  | nil => exact fun m l hi ht => ⟨hi, ht⟩
  | cons op rest ih =>
    intro m l hi ht
    cases op with
    | store k v =>
      obtain ⟨hi2, ht2⟩ := CoordMap.Store_sim hi k v
      exact ih _ _ hi2 (by rw [ht2, ht])
    | delete k =>
      obtain ⟨hi2, ht2⟩ := CoordMap.Delete_sim hi k
      exact ih _ _ hi2 (by rw [ht2, ht])

/-- C8: after any sequence of `Store`/`Delete` mutations, starting from an
empty container, the observations `Load` and `Len` of a map of the
`fast_maps.go` family coincide with lookup and size of the standard
reference key-value map run over the same sequence.  The hash function is
arbitrary, so sequences in which two distinct keys share a fast hash (the
degraded slow path) are covered. -/
theorem c8_coordMap_refines_reference (hash : K → ℕ) (ops : List (MapOp K V))
    (key : K) :
    CoordMap.Load hash (CoordMap.runOps hash ops) key =
        alLookup (refRunOps ops) key ∧
      CoordMap.Len (CoordMap.runOps hash ops) = (refRunOps ops).length := by
  obtain ⟨hinv, href⟩ := CoordMap.runOps_sim hash ops
  constructor
  · rw [CoordMap.Load_sim hinv, href]
  · rw [CoordMap.Len_sim, href]

end FastMaps

section MeshRepair

/-!
Embedding of `Mesh.Repair` (mesh_ops.go).  The Go code iterates over the
keys of the vertex-to-triangle map in unspecified order; the embedding
receives that order as an explicit duplicate-free list `vs`.  The classes
held in Go maps keyed by pointers are modelled by numeric identifiers.
-/

/-- Go `math.Round` on exact values: round to nearest, ties away from
zero. -/
def goRound (q : ℚ) : ℚ :=
  if q < 0 then -((Int.floor (-q + 1/2) : ℤ) : ℚ) else ((Int.floor (q + 1/2) : ℤ) : ℚ)

/-- The eight grid-cell hashes of a vertex used by `Mesh.Repair`:
`round(c/ε) + {0,1}` in every dimension, in the loop order of the code. -/
def repairHashes (eps : ℚ) (c : Coord3D) : List Coord3D :=
  ([0, 1] : List ℚ).flatMap (fun i =>
    ([0, 1] : List ℚ).flatMap (fun j =>
      ([0, 1] : List ℚ).map (fun k =>
        ⟨goRound (c.x / eps) + i, goRound (c.y / eps) + j, goRound (c.z / eps) + k⟩)))

/-- The source type `equivalenceClass` of mesh_ops.go. -/
structure equivalenceClass where
  Elements : List Coord3D
  Hashes : List Coord3D
  Canonical : Coord3D
  deriving DecidableEq, Repr

/-- The mutable state of the vertex loop of `Mesh.Repair`: the
`hashToClass` index and the active class set, with classes named by
creation order instead of Go pointers. -/
structure RepairState where
  hashToClass : List (Coord3D × ℕ)
  allClasses : List (ℕ × equivalenceClass)
  nextId : ℕ
  deriving Repr

/-- The distinct class identifiers hit by the eight hashes of the current
vertex, in probe order: the Go set `classes`. -/
def foundClassIds (hashToClass : List (Coord3D × ℕ)) (hashes : List Coord3D) : List ℕ :=
  (hashes.filterMap (fun h => alLookup hashToClass h)).foldl
    (fun acc i => if i ∈ acc then acc else acc ++ [i]) []

/-- Append the hashes of a merged class that are not already present: the
inner dedup loop of `Mesh.Repair`. -/
def dedupAppend (base extra : List Coord3D) : List Coord3D :=
  extra.foldl (fun acc h => if h ∈ acc then acc else acc ++ [h]) base

/-- One iteration of the vertex loop of `Mesh.Repair`. -/
def processVertex (eps : ℚ) (st : RepairState) (c : Coord3D) : RepairState :=
  let hashes := repairHashes eps c
  let ids := foundClassIds st.hashToClass hashes
  if ids = [] then
    let cls : equivalenceClass := ⟨[c], hashes, c⟩
    { hashToClass := hashes.foldl (fun m h => alStore m h st.nextId) st.hashToClass
      allClasses := st.allClasses ++ [(st.nextId, cls)]
      nextId := st.nextId + 1 }
  else
    let merged := ids.filterMap (fun i => alLookup st.allClasses i)
    let newCls : equivalenceClass :=
      ⟨c :: merged.foldl (fun acc k => acc ++ k.Elements) [],
       merged.foldl (fun acc k => dedupAppend acc k.Hashes) hashes,
       c⟩
    { hashToClass := newCls.Hashes.foldl (fun m h => alStore m h st.nextId) st.hashToClass
      allClasses := (ids.foldl (fun acc i => alDelete acc i) st.allClasses) ++
        [(st.nextId, newCls)]
      nextId := st.nextId + 1 }

/-- The class set left by the vertex loop of `Mesh.Repair` over the vertex
iteration order `vs`. -/
def repairClasses (eps : ℚ) (vs : List Coord3D) : List equivalenceClass :=
  ((vs.foldl (processVertex eps) ⟨[], [], 0⟩).allClasses).map Prod.snd

/-- The final `coordToClass`-based rewrite of `Mesh.Repair`: a vertex is
sent to the canonical of its class.  A coordinate outside every class
cannot occur in the mesh and is kept unchanged. -/
def repairMapping (eps : ℚ) (vs : List Coord3D) (c : Coord3D) : Coord3D :=
  match (repairClasses eps vs).find? (fun k => c ∈ k.Elements) with
  | some k => k.Canonical
  | none => c

/-- Embedding of `Mesh.Repair`: `MapCoords` of the class-canonical
rewrite, with `vs` the Go iteration order over the mesh vertices. -/
def Mesh.Repair (m : Mesh) (eps : ℚ) (vs : List Coord3D) : Mesh :=
  m.map (fun t =>
    ⟨repairMapping eps vs t.p0, repairMapping eps vs t.p1, repairMapping eps vs t.p2⟩)

/-- Two vertices of the iteration share one of their eight grid cells. -/
def shareCell (eps : ℚ) (u v : Coord3D) : Prop :=
  ∃ h, h ∈ repairHashes eps u ∧ h ∈ repairHashes eps v

/-- One merge edge: both vertices were iterated over and share a cell. -/
def repairStep (eps : ℚ) (vs : List Coord3D) (u v : Coord3D) : Prop :=
  u ∈ vs ∧ v ∈ vs ∧ shareCell eps u v

/-- Transitive sharing of grid cells among iterated vertices. -/
def repairConnected (eps : ℚ) (vs : List Coord3D) : Coord3D → Coord3D → Prop :=
  Relation.ReflTransGen (repairStep eps vs)

section RepairLemmas

variable {K V : Type} [DecidableEq K]

theorem alLookup_alStore (l : List (K × V)) (k k2 : K) (v : V) :
    alLookup (alStore l k v) k2 = if k = k2 then some v else alLookup l k2 := by
  induction l with
  | nil =>
    by_cases h : k = k2 <;> simp [alStore, alLookup, h]
  | cons p rest ih =>
    by_cases hp : p.1 = k
    · by_cases h : k = k2
      · simp [alStore, alLookup, hp, h]
      · simp [alStore, alLookup, hp, h, fun he : p.1 = k2 => h (hp ▸ he)]
    · by_cases h : p.1 = k2
      · have hkk : ¬ k = k2 := fun he => hp (h.trans he.symm)
        rw [alStore, if_neg hp, alLookup, if_pos h, if_neg hkk, alLookup, if_pos h]
      · rw [alStore, if_neg hp, alLookup, if_neg h, ih]
        by_cases hk : k = k2
        · rw [if_pos hk, if_pos hk]
        · rw [if_neg hk, if_neg hk, alLookup, if_neg h]

theorem alLookup_eq_some_iff_mem {l : List (K × V)} (hnd : (alKeys l).Nodup)
    {k : K} {v : V} : alLookup l k = some v ↔ (k, v) ∈ l := by
  induction l with
  | nil => simp [alLookup]
  | cons p rest ih =>
    obtain ⟨hhd, htl⟩ := List.nodup_cons.mp hnd
    by_cases hp : p.1 = k
    · constructor
      · intro h
        rw [alLookup, if_pos hp] at h
        have hv : p.2 = v := by simpa using h
        have hkv : (k, v) = p := by rw [← hp, ← hv]
        rw [hkv]
        exact List.mem_cons_self p rest
      · intro h
        rcases List.mem_cons.mp h with h1 | h1
        · rw [alLookup, if_pos hp, ← h1]
        · exact absurd (hp ▸ (List.mem_map_of_mem Prod.fst h1) :
            p.1 ∈ alKeys rest) hhd
    · rw [alLookup, if_neg hp, ih htl]
      constructor
      · exact fun h => List.mem_cons_of_mem p h
      · intro h
        rcases List.mem_cons.mp h with h1 | h1
        · exact absurd (congrArg Prod.fst h1.symm) hp
        · exact h1

theorem mem_alDelete_of_mem_ne {l : List (K × V)} {k0 : K} {c : K × V}
    (hc : c ∈ l) (hne : c.1 ≠ k0) : c ∈ alDelete l k0 := by
  induction l with
  | nil => simp at hc
  | cons p rest ih =>
    by_cases hp : p.1 = k0
    · rcases List.mem_cons.mp hc with h1 | h1
      · exact absurd (h1 ▸ hp) hne
      · simpa [alDelete, hp] using h1
    · rcases List.mem_cons.mp hc with h1 | h1
      · simp [alDelete, hp, h1]
      · simp [alDelete, hp, ih h1]

theorem ne_of_mem_alDelete {l : List (K × V)} (hnd : (alKeys l).Nodup)
    {k0 : K} {c : K × V} (hc : c ∈ alDelete l k0) : c ∈ l ∧ c.1 ≠ k0 := by
  induction l with
  | nil => simp [alDelete] at hc
  | cons p rest ih =>
    obtain ⟨hhd, htl⟩ := List.nodup_cons.mp hnd
    by_cases hp : p.1 = k0
    · rw [alDelete, if_pos hp] at hc
      refine ⟨List.mem_cons_of_mem p hc, fun he => ?_⟩
      exact hhd (hp ▸ he ▸ List.mem_map_of_mem Prod.fst hc)
    · rw [alDelete, if_neg hp] at hc
      rcases List.mem_cons.mp hc with h1 | h1
      · exact ⟨h1 ▸ List.mem_cons_self p rest, h1 ▸ hp⟩
      · obtain ⟨hm, hne⟩ := ih htl h1
        exact ⟨List.mem_cons_of_mem p hm, hne⟩

/-- Extracting the entry of a present key is a permutation. -/
theorem alDelete_extract_perm {l : List (K × V)} {k : K} {v : V}
    (h : alLookup l k = some v) : List.Perm l ((k, v) :: alDelete l k) := by
  induction l with
  | nil => simp [alLookup] at h
  | cons p rest ih =>
    by_cases hp : p.1 = k
    · rw [alLookup, if_pos hp] at h
      obtain rfl : p.2 = v := by simpa using h
      have hpe : p = (k, p.2) := by rw [← hp]
      rw [alDelete, if_pos hp]
      exact hpe ▸ List.Perm.refl _
    · rw [alLookup, if_neg hp] at h
      rw [alDelete, if_neg hp]
      exact ((ih h).cons p).trans (List.Perm.swap (k, v) p (alDelete rest k))

theorem alLookup_alDelete_of_ne {l : List (K × V)} (hnd : (alKeys l).Nodup)
    {k0 k : K} (hne : k ≠ k0) : alLookup (alDelete l k0) k = alLookup l k := by
  rcases ho : alLookup l k with _ | v
  · rw [alLookup_eq_none_iff]
    intro hmem
    exact alLookup_eq_none_iff.mp ho
      (((alDelete_sublist l k0).map Prod.fst).subset hmem)
  · rw [alLookup_eq_some_iff_mem (alKeys_nodup_alDelete k0 hnd)]
    exact mem_alDelete_of_mem_ne ((alLookup_eq_some_iff_mem hnd).mp ho) hne

/-- Membership in the duplicate-skipping accumulation loop. -/
theorem mem_collect_fold {l acc : List K} {x : K} :
    x ∈ l.foldl (fun acc i => if i ∈ acc then acc else acc ++ [i]) acc ↔
      x ∈ acc ∨ x ∈ l := by
  induction l generalizing acc with
  | nil => simp
  | cons i rest ih =>
    by_cases hi : i ∈ acc
    · rw [List.foldl_cons, if_pos hi, ih]
      constructor
      · rintro (h | h)
        · exact Or.inl h
        · exact Or.inr (List.mem_cons_of_mem i h)
      · rintro (h | h)
        · exact Or.inl h
        · rcases List.mem_cons.mp h with h1 | h1
          · exact Or.inl (h1 ▸ hi)
          · exact Or.inr h1
    · rw [List.foldl_cons, if_neg hi, ih]
      constructor
      · rintro (h | h)
        · rcases List.mem_append.mp h with h1 | h1
          · exact Or.inl h1
          · exact Or.inr (List.mem_cons.mpr (Or.inl (List.mem_singleton.mp h1)))
        · exact Or.inr (List.mem_cons_of_mem i h)
      · rintro (h | h)
        · exact Or.inl (List.mem_append.mpr (Or.inl h))
        · rcases List.mem_cons.mp h with h1 | h1
          · exact Or.inl (List.mem_append.mpr (Or.inr (List.mem_singleton.mpr h1)))
          · exact Or.inr h1

/-- The duplicate-skipping accumulation loop keeps its output
duplicate-free. -/
theorem nodup_collect_fold {l acc : List K} (h : acc.Nodup) :
    (l.foldl (fun acc i => if i ∈ acc then acc else acc ++ [i]) acc).Nodup := by
  induction l generalizing acc with
  | nil => exact h
  | cons i rest ih =>
    by_cases hi : i ∈ acc
    · rw [List.foldl_cons, if_pos hi]
      exact ih h
    · rw [List.foldl_cons, if_neg hi]
      refine ih (List.Nodup.append h (by simp) ?_)
      intro x hx hxi
      rw [List.mem_singleton] at hxi
      exact hi (hxi ▸ hx)

/-- Appending through the left-fold of list concatenation. -/
theorem foldl_append_eq_flatten {β : Type} (f : β → List K) (l : List β)
    (acc : List K) :
    l.foldl (fun a k => a ++ f k) acc = acc ++ (l.map f).flatten := by
  induction l generalizing acc with
  | nil => simp
  | cons b rest ih => simp [ih, List.append_assoc]

/-- A permutation of the outer lists permutes the concatenation. -/
theorem perm_flatten_of_perm {l1 l2 : List (List K)} (h : List.Perm l1 l2) :
    List.Perm l1.flatten l2.flatten := by
  induction h with
  | nil => rfl
  | cons x _ ih => simpa using ih.append_left x
  | swap x y l =>
    simp only [List.flatten_cons]
    rw [← List.append_assoc, ← List.append_assoc]
    exact (List.perm_append_comm).append_right _
  | trans _ _ ih1 ih2 => exact ih1.trans ih2

theorem alLookup_storeFold {hs : List K} {m0 : List (K × V)} (n : V) (h : K) :
    alLookup (hs.foldl (fun m x => alStore m x n) m0) h =
      if h ∈ hs then some n else alLookup m0 h := by
  induction hs generalizing m0 with
  | nil => simp
  | cons x rest ih =>
    rw [List.foldl_cons, ih]
    by_cases hr : h ∈ rest
    · rw [if_pos hr, if_pos (List.mem_cons_of_mem x hr)]
    · rw [if_neg hr, alLookup_alStore]
      by_cases hx : x = h
      · rw [if_pos hx, if_pos (List.mem_cons.mpr (Or.inl hx.symm))]
      · rw [if_neg hx,
          if_neg (fun hm => (List.mem_cons.mp hm).elim (fun h1 => hx h1.symm) hr)]

theorem mem_foldDelete {ids : List K} {ac : List (K × V)}
    (hnd : (alKeys ac).Nodup) {c : K × V} :
    c ∈ ids.foldl (fun a i => alDelete a i) ac ↔ c ∈ ac ∧ c.1 ∉ ids := by
  induction ids generalizing ac with
  | nil => simp
  | cons i rest ih =>
    rw [List.foldl_cons, ih (alKeys_nodup_alDelete i hnd)]
    constructor
    · rintro ⟨hm, hr⟩
      obtain ⟨hm2, hne⟩ := ne_of_mem_alDelete hnd hm
      exact ⟨hm2, fun hmem => (List.mem_cons.mp hmem).elim (fun h1 => hne h1) hr⟩
    · rintro ⟨hm, hr⟩
      have hne : c.1 ≠ i := fun h1 => hr (List.mem_cons.mpr (Or.inl h1))
      exact ⟨mem_alDelete_of_mem_ne hm hne,
        fun hmem => hr (List.mem_cons_of_mem i hmem)⟩

theorem alKeys_nodup_foldDelete {ids : List K} {ac : List (K × V)}
    (hnd : (alKeys ac).Nodup) :
    (alKeys (ids.foldl (fun a i => alDelete a i) ac)).Nodup := by
  induction ids generalizing ac with
  | nil => exact hnd
  | cons i rest ih => exact ih (alKeys_nodup_alDelete i hnd)

theorem alLookup_congr_filterMap {ids : List K} {ac ac2 : List (K × V)}
    (h : ∀ i ∈ ids, alLookup ac i = alLookup ac2 i) :
    ids.filterMap (fun i => alLookup ac i) = ids.filterMap (fun i => alLookup ac2 i) := by
  induction ids with
  | nil => rfl
  | cons i rest ih =>
    rw [List.filterMap_cons, List.filterMap_cons,
      h i (List.mem_cons_self i rest),
      ih (fun j hj => h j (List.mem_cons_of_mem i hj))]

/-- Removing the classes found under a duplicate-free id list is a
permutation splitting off their entries. -/
theorem foldDelete_extract_perm {ids : List K} {ac : List (K × V)}
    (hnd : (alKeys ac).Nodup) (hids : ids.Nodup)
    (hfound : ∀ i ∈ ids, ∃ k, alLookup ac i = some k) :
    List.Perm ac
      ((ids.filterMap (fun i => (alLookup ac i).map (fun k => (i, k)))) ++
        ids.foldl (fun a i => alDelete a i) ac) := by
  induction ids generalizing ac with
  | nil => simp
  | cons i rest ih =>
    obtain ⟨k, hk⟩ := hfound i (List.mem_cons_self i rest)
    obtain ⟨hi_rest, hrest_nd⟩ := List.nodup_cons.mp hids
    have hlook_eq : ∀ j ∈ rest, alLookup (alDelete ac i) j = alLookup ac j := by
      intro j hj
      exact alLookup_alDelete_of_ne hnd (fun he => hi_rest (he ▸ hj))
    have hperm1 : List.Perm ac ((i, k) :: alDelete ac i) := alDelete_extract_perm hk
    have ihd := ih (alKeys_nodup_alDelete i hnd) hrest_nd
      (fun j hj => by
        obtain ⟨k2, hk2⟩ := hfound j (List.mem_cons_of_mem i hj)
        exact ⟨k2, (hlook_eq j hj).trans hk2⟩)
    have hfm_eq : rest.filterMap (fun j => (alLookup (alDelete ac i) j).map
          (fun k2 => (j, k2))) =
        rest.filterMap (fun j => (alLookup ac j).map (fun k2 => (j, k2))) := by
      apply List.filterMap_congr
      intro j hj
      rw [hlook_eq j hj]
    rw [List.filterMap_cons, hk, List.foldl_cons]
    exact hperm1.trans ((hfm_eq ▸ ihd).cons (i, k))

/-- Membership in the found-class id set of `Mesh.Repair`. -/
theorem mem_foundClassIds {htc : List (Coord3D × ℕ)} {hashes : List Coord3D} {i : ℕ} :
    i ∈ foundClassIds htc hashes ↔ ∃ h ∈ hashes, alLookup htc h = some i := by
  unfold foundClassIds
  rw [mem_collect_fold]
  simp [List.mem_filterMap]

theorem foundClassIds_nodup (htc : List (Coord3D × ℕ)) (hashes : List Coord3D) :
    (foundClassIds htc hashes).Nodup :=
  nodup_collect_fold (by simp)

theorem mem_dedupAppend {base extra : List Coord3D} {x : Coord3D} :
    x ∈ dedupAppend base extra ↔ x ∈ base ∨ x ∈ extra := by
  unfold dedupAppend
  exact mem_collect_fold

theorem mem_hashesFold {l : List equivalenceClass} {acc : List Coord3D} {x : Coord3D} :
    x ∈ l.foldl (fun a k => dedupAppend a k.Hashes) acc ↔
      x ∈ acc ∨ ∃ k ∈ l, x ∈ k.Hashes := by
  induction l generalizing acc with
  | nil => simp
  | cons c rest ih =>
    rw [List.foldl_cons, ih, mem_dedupAppend]
    constructor
    · rintro ((h | h) | ⟨k, hk, hx⟩)
      · exact Or.inl h
      · exact Or.inr ⟨c, List.mem_cons_self c rest, h⟩
      · exact Or.inr ⟨k, List.mem_cons_of_mem c hk, hx⟩
    · rintro (h | ⟨k, hk, hx⟩)
      · exact Or.inl (Or.inl h)
      · rcases List.mem_cons.mp hk with h1 | h1
        · exact Or.inl (Or.inr (h1 ▸ hx))
        · exact Or.inr ⟨k, h1, hx⟩

theorem alKeys_value_unique {l : List (K × V)} (hnd : (alKeys l).Nodup)
    {i : K} {a b : V} (ha : (i, a) ∈ l) (hb : (i, b) ∈ l) : a = b := by
  have h1 := (alLookup_eq_some_iff_mem hnd).mpr ha
  have h2 := (alLookup_eq_some_iff_mem hnd).mpr hb
  rw [h1] at h2
  exact (Option.some.injEq .. ▸ h2 : a = b)

theorem filterMap_pairs_snd {ids : List K} {ac : List (K × V)} :
    (ids.filterMap (fun i => (alLookup ac i).map (fun k => (i, k)))).map Prod.snd =
      ids.filterMap (fun i => alLookup ac i) := by
  induction ids with
  | nil => rfl
  | cons i rest ih =>
    rw [List.filterMap_cons, List.filterMap_cons]
    rcases ho : alLookup ac i with _ | k
    · simpa using ih
    · simpa using ih

end RepairLemmas

section RepairInvariant

/-- The merge relation is symmetric. -/
theorem repairStep_symm (eps : ℚ) (vs : List Coord3D) :
    Symmetric (repairStep eps vs) := by
  rintro u v ⟨hu, hv, h, h1, h2⟩
  exact ⟨hv, hu, h, h2, h1⟩

theorem repairConnected_symm (eps : ℚ) (vs : List Coord3D) :
    Symmetric (repairConnected eps vs) :=
  Relation.ReflTransGen.symmetric (repairStep_symm eps vs)

/-- Growing the processed list preserves connectivity. -/
theorem repairConnected_mono {eps : ℚ} {vs : List Coord3D} (c : Coord3D)
    {u v : Coord3D} (h : repairConnected eps vs u v) :
    repairConnected eps (vs ++ [c]) u v := by
  refine Relation.ReflTransGen.mono ?_ h
  rintro a b ⟨ha, hb, hs⟩
  exact ⟨List.mem_append_left _ ha, List.mem_append_left _ hb, hs⟩

/-- The invariant of the vertex loop of `Mesh.Repair` after processing the
prefix `p` of the vertex iteration. -/
structure RepairInv (eps : ℚ) (p : List Coord3D) (st : RepairState) : Prop where
  ids_nodup : (alKeys st.allClasses).Nodup
  ids_lt : ∀ i ∈ alKeys st.allClasses, i < st.nextId
  partition : List.Perm ((st.allClasses.map (fun ik => ik.2.Elements)).flatten) p
  hashes_char : ∀ ik ∈ st.allClasses, ∀ h,
    h ∈ ik.2.Hashes ↔ ∃ v ∈ ik.2.Elements, h ∈ repairHashes eps v
  lookup_sound : ∀ h i, alLookup st.hashToClass h = some i →
    ∃ k, (i, k) ∈ st.allClasses ∧ h ∈ k.Hashes
  lookup_complete : ∀ ik ∈ st.allClasses, ∀ h ∈ ik.2.Hashes,
    alLookup st.hashToClass h = some ik.1
  conn : ∀ ik ∈ st.allClasses, ∀ u ∈ ik.2.Elements, ∀ v ∈ ik.2.Elements,
    repairConnected eps p u v
  complete : ∀ u ∈ p, ∀ v ∈ p, shareCell eps u v →
    ∃ ik ∈ st.allClasses, u ∈ ik.2.Elements ∧ v ∈ ik.2.Elements
  canonical_mem : ∀ ik ∈ st.allClasses, ik.2.Canonical ∈ ik.2.Elements
  canonical_last : ∀ ik ∈ st.allClasses, ∀ e ∈ ik.2.Elements,
    p.indexOf e ≤ p.indexOf ik.2.Canonical

/-- Elements of active classes were already processed. -/
theorem RepairInv.elem_mem_p {eps : ℚ} {p : List Coord3D} {st : RepairState}
    (hinv : RepairInv eps p st) {ik : ℕ × equivalenceClass}
    (hik : ik ∈ st.allClasses) {v : Coord3D} (hv : v ∈ ik.2.Elements) : v ∈ p := by
  refine hinv.partition.subset ?_
  rw [List.mem_flatten]
  exact ⟨ik.2.Elements, List.mem_map_of_mem (fun ik => ik.2.Elements) hik, hv⟩

/-- Every processed vertex lies in some active class. -/
theorem RepairInv.mem_some_class {eps : ℚ} {p : List Coord3D} {st : RepairState}
    (hinv : RepairInv eps p st) {v : Coord3D} (hv : v ∈ p) :
    ∃ ik ∈ st.allClasses, v ∈ ik.2.Elements := by
  have := hinv.partition.symm.subset hv
  rw [List.mem_flatten] at this
  obtain ⟨xs, hxs, hvxs⟩ := this
  rw [List.mem_map] at hxs
  obtain ⟨ik, hik, rfl⟩ := hxs
  exact ⟨ik, hik, hvxs⟩

/-- Preservation of the invariant by the fresh-class branch of the vertex
loop. -/
theorem processVertex_inv_empty {eps : ℚ} {p : List Coord3D} {st : RepairState}
    (hinv : RepairInv eps p st) {c : Coord3D} (hc : c ∉ p)
    (hids : foundClassIds st.hashToClass (repairHashes eps c) = []) :
    RepairInv eps (p ++ [c])
      ⟨(repairHashes eps c).foldl (fun m h => alStore m h st.nextId) st.hashToClass,
       st.allClasses ++ [(st.nextId, ⟨[c], repairHashes eps c, c⟩)],
       st.nextId + 1⟩ := by
  set hashes := repairHashes eps c with hhashes
  set n := st.nextId with hn
  have hnone : ∀ h ∈ hashes, alLookup st.hashToClass h = none := by
    intro h hh
    rcases ho : alLookup st.hashToClass h with _ | i
    · rfl
    · have : i ∈ foundClassIds st.hashToClass hashes :=
        mem_foundClassIds.mpr ⟨h, hh, ho⟩
      rw [hids] at this
      exact absurd this (List.not_mem_nil i)
  have hkeys : alKeys (st.allClasses ++ [(n, (⟨[c], hashes, c⟩ : equivalenceClass))]) =
      alKeys st.allClasses ++ [n] := by
    simp [alKeys]
  constructor
  case ids_nodup =>
    rw [hkeys]
    refine List.Nodup.append hinv.ids_nodup (by simp) ?_
    intro x hx hxn
    rw [List.mem_singleton] at hxn
    exact absurd (hinv.ids_lt x hx) (by rw [hxn]; exact lt_irrefl n)
  case ids_lt =>
    intro i hi
    rw [hkeys] at hi
    rcases List.mem_append.mp hi with h1 | h1
    · exact Nat.lt_succ_of_lt (hinv.ids_lt i h1)
    · rw [List.mem_singleton.mp h1]
      exact Nat.lt_succ_self n
  case partition =>
    rw [List.map_append, List.flatten_append]
    simpa using hinv.partition.append_right [c]
  case hashes_char =>
    intro ik hik h
    rcases List.mem_append.mp hik with h1 | h1
    · exact hinv.hashes_char ik h1 h
    · rw [List.mem_singleton.mp h1]
      constructor
      · intro hh
        exact ⟨c, List.mem_singleton_self c, hh⟩
      · rintro ⟨v, hv, hh⟩
        rw [List.mem_singleton.mp hv] at hh
        exact hh
  case lookup_sound =>
    intro h i hlook
    rw [alLookup_storeFold] at hlook
    by_cases hh : h ∈ hashes
    · rw [if_pos hh] at hlook
      obtain rfl : n = i := by simpa using hlook
      exact ⟨⟨[c], hashes, c⟩, List.mem_append_right _ (by simp), hh⟩
    · rw [if_neg hh] at hlook
      obtain ⟨k, hk, hkh⟩ := hinv.lookup_sound h i hlook
      exact ⟨k, List.mem_append_left _ hk, hkh⟩
  case lookup_complete =>
    intro ik hik h hh
    rw [alLookup_storeFold]
    rcases List.mem_append.mp hik with h1 | h1
    · have hold := hinv.lookup_complete ik h1 h hh
      have hnotin : h ∉ hashes := by
        intro hmem
        rw [hnone h hmem] at hold
        exact absurd hold (by simp)
      rw [if_neg hnotin]
      exact hold
    · rw [List.mem_singleton.mp h1] at hh ⊢
      rw [if_pos hh]
  case conn =>
    intro ik hik u hu v hv
    rcases List.mem_append.mp hik with h1 | h1
    · exact repairConnected_mono c (hinv.conn ik h1 u hu v hv)
    · rw [List.mem_singleton.mp h1] at hu hv
      rw [List.mem_singleton.mp hu, List.mem_singleton.mp hv]
      exact Relation.ReflTransGen.refl
  case complete =>
    have himpossible : ∀ u ∈ p, ¬ shareCell eps u c := by
      rintro u hu ⟨h, hhu, hhc⟩
      obtain ⟨ik, hik, huik⟩ := hinv.mem_some_class hu
      have hinH : h ∈ ik.2.Hashes := (hinv.hashes_char ik hik h).mpr ⟨u, huik, hhu⟩
      have := hinv.lookup_complete ik hik h hinH
      rw [hnone h hhc] at this
      exact absurd this (by simp)
    intro u hu v hv hshare
    rcases List.mem_append.mp hu with hu1 | hu1 <;>
      rcases List.mem_append.mp hv with hv1 | hv1
    · obtain ⟨ik, hik, h2⟩ := hinv.complete u hu1 v hv1 hshare
      exact ⟨ik, List.mem_append_left _ hik, h2⟩
    · rw [List.mem_singleton.mp hv1] at hshare
      exact absurd hshare (himpossible u hu1)
    · rw [List.mem_singleton.mp hu1] at hshare
      obtain ⟨h, h1, h2⟩ := hshare
      exact absurd ⟨h, h2, h1⟩ (himpossible v hv1)
    · refine ⟨(n, ⟨[c], hashes, c⟩), List.mem_append_right _ (by simp), ?_, ?_⟩
      · rw [List.mem_singleton.mp hu1]
        exact List.mem_singleton_self c
      · rw [List.mem_singleton.mp hv1]
        exact List.mem_singleton_self c
  case canonical_mem =>
    intro ik hik
    rcases List.mem_append.mp hik with h1 | h1
    · exact hinv.canonical_mem ik h1
    · rw [List.mem_singleton.mp h1]
      exact List.mem_singleton_self c
  case canonical_last =>
    intro ik hik e he
    rcases List.mem_append.mp hik with h1 | h1
    · have hep : e ∈ p := hinv.elem_mem_p h1 he
      have hcp : ik.2.Canonical ∈ p := hinv.elem_mem_p h1 (hinv.canonical_mem ik h1)
      rw [List.indexOf_append_of_mem hep, List.indexOf_append_of_mem hcp]
      exact hinv.canonical_last ik h1 e he
    · rw [List.mem_singleton.mp h1] at he ⊢
      rw [List.mem_singleton.mp he]

/-- Preservation of the invariant by the merging branch of the vertex
loop. -/
theorem processVertex_inv_merge {eps : ℚ} {p : List Coord3D} {st : RepairState}
    (hinv : RepairInv eps p st) {c : Coord3D} (hc : c ∉ p)
    (hne : foundClassIds st.hashToClass (repairHashes eps c) ≠ []) :
    RepairInv eps (p ++ [c])
      ⟨((foundClassIds st.hashToClass (repairHashes eps c)).filterMap
          (fun i => alLookup st.allClasses i)).foldl
            (fun acc k => dedupAppend acc k.Hashes) (repairHashes eps c) |>.foldl
          (fun m h => alStore m h st.nextId) st.hashToClass,
       ((foundClassIds st.hashToClass (repairHashes eps c)).foldl
          (fun acc i => alDelete acc i) st.allClasses) ++
         [(st.nextId,
           ⟨c :: ((foundClassIds st.hashToClass (repairHashes eps c)).filterMap
              (fun i => alLookup st.allClasses i)).foldl
                (fun acc k => acc ++ k.Elements) [],
            ((foundClassIds st.hashToClass (repairHashes eps c)).filterMap
              (fun i => alLookup st.allClasses i)).foldl
                (fun acc k => dedupAppend acc k.Hashes) (repairHashes eps c),
            c⟩)],
       st.nextId + 1⟩ := by
  set hashes := repairHashes eps c with hhashes_def
  set n := st.nextId with hn_def
  set ids := foundClassIds st.hashToClass hashes with hids_def
  set merged := ids.filterMap (fun i => alLookup st.allClasses i) with hmerged_def
  set newElems := c :: merged.foldl (fun acc k => acc ++ k.Elements) [] with hnewE_def
  set newHashes := merged.foldl (fun acc k => dedupAppend acc k.Hashes) hashes
    with hnewH_def
  set deleted := ids.foldl (fun acc i => alDelete acc i) st.allClasses with hdel_def
  have hfound : ∀ i ∈ ids, ∃ k, alLookup st.allClasses i = some k := by
    intro i hi
    obtain ⟨h, hh, hlook⟩ := mem_foundClassIds.mp (hids_def ▸ hi)
    obtain ⟨k, hk, _⟩ := hinv.lookup_sound h i hlook
    exact ⟨k, (alLookup_eq_some_iff_mem hinv.ids_nodup).mpr hk⟩
  have hmem_merged : ∀ {k : equivalenceClass},
      k ∈ merged ↔ ∃ i, i ∈ ids ∧ (i, k) ∈ st.allClasses := by
    intro k
    rw [hmerged_def, List.mem_filterMap]
    constructor
    · rintro ⟨i, hi, hlook⟩
      exact ⟨i, hi, (alLookup_eq_some_iff_mem hinv.ids_nodup).mp hlook⟩
    · rintro ⟨i, hi, hmem⟩
      exact ⟨i, hi, (alLookup_eq_some_iff_mem hinv.ids_nodup).mpr hmem⟩
  have hmem_deleted : ∀ {e : ℕ × equivalenceClass},
      e ∈ deleted ↔ e ∈ st.allClasses ∧ e.1 ∉ ids := by
    intro e
    rw [hdel_def]
    exact mem_foldDelete hinv.ids_nodup
  have hmem_newHashes : ∀ {h : Coord3D},
      h ∈ newHashes ↔ h ∈ hashes ∨ ∃ k ∈ merged, h ∈ k.Hashes := by
    intro h
    rw [hnewH_def]
    exact mem_hashesFold
  have hmem_newElems : ∀ {v : Coord3D},
      v ∈ newElems ↔ v = c ∨ ∃ k ∈ merged, v ∈ k.Elements := by
    intro v
    rw [hnewE_def, List.mem_cons,
      foldl_append_eq_flatten (fun k => k.Elements) merged []]
    simp [List.mem_flatten]
  have hid_of_hash : ∀ {ik : ℕ × equivalenceClass}, ik ∈ st.allClasses →
      ∀ {h : Coord3D}, h ∈ ik.2.Hashes → h ∈ hashes → ik.1 ∈ ids := by
    intro ik hik h hh hhc
    rw [hids_def]
    exact mem_foundClassIds.mpr ⟨h, hhc, hinv.lookup_complete ik hik h hh⟩
  have hkeys : ∀ kk : equivalenceClass,
      alKeys (deleted ++ [(n, kk)]) = alKeys deleted ++ [n] := by
    intro kk
    simp [alKeys]
  have hn_not_del : n ∉ alKeys deleted := by
    intro hmem
    obtain ⟨v, hv⟩ := alLookup_isSome_of_mem hmem
    have hnd_del : (alKeys deleted).Nodup := by
      rw [hdel_def]
      exact alKeys_nodup_foldDelete hinv.ids_nodup
    have hmm := (alLookup_eq_some_iff_mem hnd_del).mp hv
    have : (n, v) ∈ st.allClasses := (hmem_deleted.mp hmm).1
    exact absurd (hinv.ids_lt n (List.mem_map_of_mem Prod.fst this)) (lt_irrefl n)
  -- The class found through a shared hash between an old vertex and c is
  -- always merged.
  have hclass_merged : ∀ {ik : ℕ × equivalenceClass}, ik ∈ st.allClasses →
      ik.1 ∈ ids → ik.2 ∈ merged := by
    intro ik hik hi
    exact hmem_merged.mpr ⟨ik.1, hi, hik⟩
  constructor
  case ids_nodup =>
    rw [hkeys]
    refine List.Nodup.append ?_ (by simp) ?_
    · rw [hdel_def]
      exact alKeys_nodup_foldDelete hinv.ids_nodup
    · intro x hx hxn
      rw [List.mem_singleton] at hxn
      exact hn_not_del (hxn ▸ hx)
  case ids_lt =>
    intro i hi
    rw [hkeys] at hi
    rcases List.mem_append.mp hi with h1 | h1
    · obtain ⟨v, hv⟩ := alLookup_isSome_of_mem h1
      have hnd_del : (alKeys deleted).Nodup := by
        rw [hdel_def]
        exact alKeys_nodup_foldDelete hinv.ids_nodup
      have : (i, v) ∈ st.allClasses :=
        (hmem_deleted.mp ((alLookup_eq_some_iff_mem hnd_del).mp hv)).1
      exact Nat.lt_succ_of_lt (hinv.ids_lt i (List.mem_map_of_mem Prod.fst this))
    · rw [List.mem_singleton.mp h1]
      exact Nat.lt_succ_self n
  case partition =>
    have hEx := foldDelete_extract_perm hinv.ids_nodup
      (hids_def ▸ foundClassIds_nodup st.hashToClass hashes) hfound
    have hpairs_snd :
        (ids.filterMap (fun i => (alLookup st.allClasses i).map (fun k => (i, k)))).map
          Prod.snd = merged := by
      rw [hmerged_def]
      exact filterMap_pairs_snd
    set pairs := ids.filterMap
      (fun i => (alLookup st.allClasses i).map (fun k => (i, k))) with hpairs_def
    have hflat : List.Perm ((st.allClasses.map (fun ik => ik.2.Elements)).flatten)
        (((pairs ++ deleted).map (fun ik => ik.2.Elements)).flatten) :=
      perm_flatten_of_perm (hEx.map _)
    have hpairs_flat : pairs.map (fun ik => ik.2.Elements) =
        merged.map (fun k => k.Elements) := by
      rw [← hpairs_snd, List.map_map]
      rfl
    have hsplit : (((pairs ++ deleted).map (fun ik => ik.2.Elements)).flatten) =
        (merged.map (fun k => k.Elements)).flatten ++
          ((deleted.map (fun ik => ik.2.Elements)).flatten) := by
      rw [List.map_append, List.flatten_append, hpairs_flat]
    have hp2 : List.Perm p
        ((merged.map (fun k => k.Elements)).flatten ++
          (deleted.map (fun ik => ik.2.Elements)).flatten) :=
      (hinv.partition.symm.trans hflat).trans (hsplit ▸ List.Perm.refl _)
    rw [List.map_append, List.flatten_append]
    have hele : merged.foldl (fun acc k => acc ++ k.Elements) [] =
        (merged.map (fun k => k.Elements)).flatten := by
      simpa using foldl_append_eq_flatten (fun k => k.Elements) merged []
    set Mer := (merged.map (fun k => k.Elements)).flatten with hMer_def
    set Del := (deleted.map (fun ik => ik.2.Elements)).flatten with hDel_def
    have hgoal1 : ((([(n, (⟨newElems, newHashes, c⟩ : equivalenceClass))]).map
        (fun ik => ik.2.Elements)).flatten) = newElems := by
      simp
    rw [hgoal1]
    have hstep1 : List.Perm (Del ++ newElems) (c :: (Del ++ Mer)) := by
      rw [hnewE_def, hele]
      exact List.perm_middle
    have hstep2 : List.Perm (c :: (Del ++ Mer)) (c :: (Mer ++ Del)) :=
      (List.perm_append_comm).cons c
    have hstep3 : List.Perm (c :: (Mer ++ Del)) (c :: p) := (hp2.symm).cons c
    have hstep4 : List.Perm (c :: p) (p ++ [c]) :=
      (List.perm_append_singleton c p).symm
    exact ((hstep1.trans hstep2).trans hstep3).trans hstep4
  case hashes_char =>
    intro ik hik h
    rcases List.mem_append.mp hik with h1 | h1
    · exact hinv.hashes_char ik (hmem_deleted.mp h1).1 h
    · rw [List.mem_singleton.mp h1]
      show h ∈ newHashes ↔ ∃ v ∈ newElems, h ∈ repairHashes eps v
      rw [hmem_newHashes]
      constructor
      · rintro (hh | ⟨k, hk, hkh⟩)
        · exact ⟨c, hmem_newElems.mpr (Or.inl rfl), hhashes_def ▸ hh⟩
        · obtain ⟨i, _, hpair⟩ := hmem_merged.mp hk
          obtain ⟨v, hv, hvh⟩ := (hinv.hashes_char (i, k) hpair h).mp hkh
          exact ⟨v, hmem_newElems.mpr (Or.inr ⟨k, hk, hv⟩), hvh⟩
      · rintro ⟨v, hv, hvh⟩
        rcases hmem_newElems.mp hv with rfl | ⟨k, hk, hkv⟩
        · exact Or.inl (hhashes_def ▸ hvh)
        · obtain ⟨i, _, hpair⟩ := hmem_merged.mp hk
          exact Or.inr ⟨k, hk, (hinv.hashes_char (i, k) hpair h).mpr ⟨v, hkv, hvh⟩⟩
  case lookup_sound =>
    intro h i hlook
    rw [alLookup_storeFold] at hlook
    by_cases hh : h ∈ newHashes
    · rw [if_pos hh] at hlook
      obtain rfl : n = i := by simpa using hlook
      exact ⟨⟨newElems, newHashes, c⟩, List.mem_append_right _ (by simp), hh⟩
    · rw [if_neg hh] at hlook
      obtain ⟨k, hk, hkh⟩ := hinv.lookup_sound h i hlook
      have hnotids : i ∉ ids := by
        intro hi
        exact hh (hmem_newHashes.mpr (Or.inr ⟨k, hclass_merged hk hi, hkh⟩))
      exact ⟨k, List.mem_append_left _ (hmem_deleted.mpr ⟨hk, hnotids⟩), hkh⟩
  case lookup_complete =>
    intro ik hik h hh
    rw [alLookup_storeFold]
    rcases List.mem_append.mp hik with h1 | h1
    · obtain ⟨hac, hnotids⟩ := hmem_deleted.mp h1
      have hnotnew : h ∉ newHashes := by
        intro hmem
        rcases hmem_newHashes.mp hmem with hm1 | ⟨k, hk, hkh⟩
        · exact hnotids (hid_of_hash hac hh hm1)
        · obtain ⟨i, hi, hpair⟩ := hmem_merged.mp hk
          have e1 := hinv.lookup_complete (i, k) hpair h hkh
          have e2 := hinv.lookup_complete ik hac h hh
          rw [e1] at e2
          obtain rfl : i = ik.1 := by simpa using e2
          exact hnotids hi
      rw [if_neg hnotnew]
      exact hinv.lookup_complete ik hac h hh
    · rw [List.mem_singleton.mp h1] at hh ⊢
      rw [if_pos hh]
  case conn =>
    have hconn_to_c : ∀ u ∈ newElems, repairConnected eps (p ++ [c]) u c := by
      intro u hu
      rcases hmem_newElems.mp hu with rfl | ⟨k, hk, hku⟩
      · exact Relation.ReflTransGen.refl
      · obtain ⟨i, hi, hpair⟩ := hmem_merged.mp hk
        obtain ⟨h2, hh2, hlook2⟩ := mem_foundClassIds.mp (hids_def ▸ hi)
        obtain ⟨k2, hk2pair, hk2h⟩ := hinv.lookup_sound h2 i hlook2
        obtain rfl : k2 = k := alKeys_value_unique hinv.ids_nodup hk2pair hpair
        obtain ⟨w, hw, hwh⟩ := (hinv.hashes_char (i, k2) hpair h2).mp hk2h
        have hstep : repairStep eps (p ++ [c]) w c :=
          ⟨List.mem_append_left _ (hinv.elem_mem_p hpair hw),
           List.mem_append_right _ (by simp),
           h2, hwh, hhashes_def ▸ hh2⟩
        have huw : repairConnected eps (p ++ [c]) u w :=
          repairConnected_mono c (hinv.conn (i, k2) hpair u hku w hw)
        exact huw.tail hstep
    intro ik hik u hu v hv
    rcases List.mem_append.mp hik with h1 | h1
    · exact repairConnected_mono c
        (hinv.conn ik (hmem_deleted.mp h1).1 u hu v hv)
    · rw [List.mem_singleton.mp h1] at hu hv
      exact (hconn_to_c u hu).trans
        (repairConnected_symm eps (p ++ [c]) (hconn_to_c v hv))
  case complete =>
    have hfromc : ∀ u ∈ p, shareCell eps u c → u ∈ newElems := by
      rintro u hu ⟨h, hhu, hhc⟩
      obtain ⟨ik, hik, huik⟩ := hinv.mem_some_class hu
      have hinH : h ∈ ik.2.Hashes := (hinv.hashes_char ik hik h).mpr ⟨u, huik, hhu⟩
      have hi : ik.1 ∈ ids := hid_of_hash hik hinH (hhashes_def ▸ hhc)
      exact hmem_newElems.mpr (Or.inr ⟨ik.2, hclass_merged hik hi, huik⟩)
    intro u hu v hv hshare
    rcases List.mem_append.mp hu with hu1 | hu1 <;>
      rcases List.mem_append.mp hv with hv1 | hv1
    · obtain ⟨ik, hik, hu2, hv2⟩ := hinv.complete u hu1 v hv1 hshare
      by_cases hi : ik.1 ∈ ids
      · refine ⟨(n, ⟨newElems, newHashes, c⟩), List.mem_append_right _ (by simp),
          ?_, ?_⟩
        · exact hmem_newElems.mpr (Or.inr ⟨ik.2, hclass_merged hik hi, hu2⟩)
        · exact hmem_newElems.mpr (Or.inr ⟨ik.2, hclass_merged hik hi, hv2⟩)
      · exact ⟨ik, List.mem_append_left _ (hmem_deleted.mpr ⟨hik, hi⟩), hu2, hv2⟩
    · rw [List.mem_singleton.mp hv1] at hshare
      refine ⟨(n, ⟨newElems, newHashes, c⟩), List.mem_append_right _ (by simp),
        hfromc u hu1 hshare, ?_⟩
      rw [List.mem_singleton.mp hv1]
      exact hmem_newElems.mpr (Or.inl rfl)
    · rw [List.mem_singleton.mp hu1] at hshare ⊢
      obtain ⟨h, h1, h2⟩ := hshare
      refine ⟨(n, ⟨newElems, newHashes, c⟩), List.mem_append_right _ (by simp),
        hmem_newElems.mpr (Or.inl rfl), hfromc v hv1 ⟨h, h2, h1⟩⟩
    · refine ⟨(n, ⟨newElems, newHashes, c⟩), List.mem_append_right _ (by simp),
        ?_, ?_⟩
      · rw [List.mem_singleton.mp hu1]
        exact hmem_newElems.mpr (Or.inl rfl)
      · rw [List.mem_singleton.mp hv1]
        exact hmem_newElems.mpr (Or.inl rfl)
  case canonical_mem =>
    intro ik hik
    rcases List.mem_append.mp hik with h1 | h1
    · exact hinv.canonical_mem ik (hmem_deleted.mp h1).1
    · rw [List.mem_singleton.mp h1]
      exact hmem_newElems.mpr (Or.inl rfl)
  case canonical_last =>
    intro ik hik e he
    rcases List.mem_append.mp hik with h1 | h1
    · have hac := (hmem_deleted.mp h1).1
      have hep : e ∈ p := hinv.elem_mem_p hac he
      have hcp : ik.2.Canonical ∈ p := hinv.elem_mem_p hac (hinv.canonical_mem ik hac)
      rw [List.indexOf_append_of_mem hep, List.indexOf_append_of_mem hcp]
      exact hinv.canonical_last ik hac e he
    · rw [List.mem_singleton.mp h1] at he ⊢
      show (p ++ [c]).indexOf e ≤ (p ++ [c]).indexOf c
      rcases hmem_newElems.mp he with rfl | ⟨k, hk, hkv⟩
      · exact le_refl _
      · obtain ⟨i, _, hpair⟩ := hmem_merged.mp hk
        have hep : e ∈ p := hinv.elem_mem_p hpair hkv
        rw [List.indexOf_append_of_mem hep, List.indexOf_append_of_not_mem hc]
        have := List.indexOf_lt_length.mpr hep
        omega

/-- Distinct members of a pairwise-disjoint family cannot share an
element. -/
theorem pairwise_disjoint_unique {α : Type} {l : List (List α)}
    (hp : l.Pairwise List.Disjoint) {xs ys : List α}
    (hxs : xs ∈ l) (hys : ys ∈ l) {a : α} (ha : a ∈ xs) (hb : a ∈ ys) : xs = ys := by
  induction l with
  | nil => simp at hxs
  | cons z rest ih =>
    obtain ⟨hz, hrest⟩ := List.pairwise_cons.mp hp
    rcases List.mem_cons.mp hxs with h1 | h1 <;> rcases List.mem_cons.mp hys with h2 | h2
    · rw [h1, h2]
    · exact absurd hb (hz ys h2 (h1 ▸ ha))
    · exact absurd ha (hz xs h1 (h2 ▸ hb))
    · exact ih hrest h1 h2

/-- Preservation of the invariant by one iteration of the vertex loop. -/
theorem processVertex_inv {eps : ℚ} {p : List Coord3D} {st : RepairState}
    (hinv : RepairInv eps p st) {c : Coord3D} (hc : c ∉ p) :
    RepairInv eps (p ++ [c]) (processVertex eps st c) := by
  by_cases hids : foundClassIds st.hashToClass (repairHashes eps c) = []
  · have hstep : processVertex eps st c =
        ⟨(repairHashes eps c).foldl (fun m h => alStore m h st.nextId) st.hashToClass,
         st.allClasses ++ [(st.nextId, ⟨[c], repairHashes eps c, c⟩)],
         st.nextId + 1⟩ := by
      simp only [processVertex]
      rw [if_pos hids]
    rw [hstep]
    exact processVertex_inv_empty hinv hc hids
  · have hstep : processVertex eps st c =
        ⟨((foundClassIds st.hashToClass (repairHashes eps c)).filterMap
            (fun i => alLookup st.allClasses i)).foldl
              (fun acc k => dedupAppend acc k.Hashes) (repairHashes eps c) |>.foldl
            (fun m h => alStore m h st.nextId) st.hashToClass,
         ((foundClassIds st.hashToClass (repairHashes eps c)).foldl
            (fun acc i => alDelete acc i) st.allClasses) ++
           [(st.nextId,
             ⟨c :: ((foundClassIds st.hashToClass (repairHashes eps c)).filterMap
                (fun i => alLookup st.allClasses i)).foldl
                  (fun acc k => acc ++ k.Elements) [],
              ((foundClassIds st.hashToClass (repairHashes eps c)).filterMap
                (fun i => alLookup st.allClasses i)).foldl
                  (fun acc k => dedupAppend acc k.Hashes) (repairHashes eps c),
              c⟩)],
         st.nextId + 1⟩ := by
      simp only [processVertex]
      rw [if_neg hids]
    rw [hstep]
    exact processVertex_inv_merge hinv hc hids

/-- The invariant at the empty start state of `Mesh.Repair`. -/
theorem repairInv_init (eps : ℚ) : RepairInv eps [] ⟨[], [], 0⟩ := by
  constructor
  case ids_nodup => simp [alKeys]
  case ids_lt => simp [alKeys]
  case partition => simp
  case hashes_char => simp
  case lookup_sound => simp [alLookup]
  case lookup_complete => simp
  case conn => simp
  case complete => simp
  case canonical_mem => simp
  case canonical_last => simp

/-- The invariant after the whole vertex loop of `Mesh.Repair`. -/
theorem repairFold_inv (eps : ℚ) (vs : List Coord3D) (hnd : vs.Nodup) :
    RepairInv eps vs (vs.foldl (processVertex eps) ⟨[], [], 0⟩) := by
  suffices h : ∀ (ws p : List Coord3D) (st : RepairState), RepairInv eps p st →
      (p ++ ws).Nodup →
      RepairInv eps (p ++ ws) (ws.foldl (processVertex eps) st) by
    simpa using h vs [] ⟨[], [], 0⟩ (repairInv_init eps) (by simpa using hnd)
  intro ws
  induction ws with
  | nil => intro p st hinv _; simpa using hinv
  | cons w rest ih =>
    intro p st hinv hnd2
    have hassoc : p ++ w :: rest = (p ++ [w]) ++ rest := by simp
    have hw : w ∉ p := by
      intro hwp
      rw [hassoc] at hnd2
      have hdisj := List.disjoint_of_nodup_append hnd2
      have : w ∈ p ++ [w] := List.mem_append_right _ (by simp)
      rw [List.append_assoc] at hnd2
      have hd2 := List.disjoint_of_nodup_append hnd2
      have : w ∈ [w] ++ rest := List.mem_append_left _ (by simp)
      exact hd2 hwp this
    have h1 := processVertex_inv hinv hw
    have h2 := ih (p ++ [w]) (processVertex eps st w) h1 (by rw [← hassoc]; exact hnd2)
    rw [hassoc]
    simpa using h2

/-- C7 (amended): in `Mesh.Repair`, vertices whose eight grid-cell hashes
share a cell are merged transitively into equivalence classes, and every
vertex of a class is remapped in the output mesh to the class's canonical
representative — which is the class's most recently processed vertex (the
last one in the Go map iteration order `vs`), not the first-inserted
one. -/
theorem c7_repair_merges_to_last_processed (eps : ℚ) (vs : List Coord3D)
    (hnd : vs.Nodup) (v : Coord3D) (hv : v ∈ vs) :
    ∃ k ∈ repairClasses eps vs,
      (∀ u, u ∈ k.Elements ↔ repairConnected eps vs v u) ∧
      repairMapping eps vs v = k.Canonical ∧
      k.Canonical ∈ k.Elements ∧
      (∀ e ∈ k.Elements, vs.indexOf e ≤ vs.indexOf k.Canonical) ∧
      (∀ m : Mesh, Mesh.Repair m eps vs = m.map (fun t =>
        ⟨repairMapping eps vs t.p0, repairMapping eps vs t.p1,
         repairMapping eps vs t.p2⟩)) := by
  have hinv := repairFold_inv eps vs hnd
  set st := vs.foldl (processVertex eps) ⟨[], [], 0⟩ with hst_def
  have hclasses : repairClasses eps vs = st.allClasses.map Prod.snd := rfl
  have hflat_nodup : ((st.allClasses.map (fun ik => ik.2.Elements)).flatten).Nodup :=
    (hinv.partition.symm).nodup hnd
  have hpairwise := (List.nodup_flatten.mp hflat_nodup).2
  have huniq : ∀ ik1 ∈ st.allClasses, ∀ ik2 ∈ st.allClasses, ∀ x : Coord3D,
      x ∈ ik1.2.Elements → x ∈ ik2.2.Elements →
      ik1.2.Elements = ik2.2.Elements := by
    intro ik1 h1 ik2 h2 x hx1 hx2
    exact pairwise_disjoint_unique hpairwise
      (List.mem_map_of_mem (fun ik => ik.2.Elements) h1)
      (List.mem_map_of_mem (fun ik => ik.2.Elements) h2) hx1 hx2
  obtain ⟨ik, hik, hvik⟩ := hinv.mem_some_class hv
  rcases hfind : (repairClasses eps vs).find? (fun k => decide (v ∈ k.Elements))
    with _ | k
  · rw [List.find?_eq_none] at hfind
    exact absurd (by simpa using hvik)
      (hfind ik.2 (hclasses ▸ List.mem_map_of_mem Prod.snd hik))
  · have hkmem : k ∈ repairClasses eps vs := List.mem_of_find?_eq_some hfind
    have hkv : v ∈ k.Elements := by
      have hpk := List.find?_some hfind
      simpa using hpk
    obtain ⟨ik2, hik2, hik2eq⟩ := List.mem_map.mp (hclasses ▸ hkmem)
    refine ⟨k, hkmem, ?_, ?_, ?_, ?_, fun m => rfl⟩
    · intro u
      constructor
      · intro hu
        exact hinv.conn ik2 hik2 v (hik2eq ▸ hkv) u (hik2eq ▸ hu)
      · intro hcon
        induction hcon with
        | refl => exact hkv
        | tail hwb hstep ih =>
          obtain ⟨hb, hc2, hshare⟩ := hstep
          obtain ⟨ik3, hik3, hb3, hc3⟩ := hinv.complete _ hb _ hc2 hshare
          have heq : ik3.2.Elements = ik2.2.Elements :=
            huniq ik3 hik3 ik2 hik2 _ hb3 (hik2eq ▸ ih)
          rw [← hik2eq, ← heq]
          exact hc3
    · show repairMapping eps vs v = k.Canonical
      rw [repairMapping, hfind]
    · exact hik2eq ▸ hinv.canonical_mem ik2 hik2
    · intro e he
      have h1 := hinv.canonical_last ik2 hik2 e (hik2eq ▸ he)
      rw [hik2eq] at h1
      exact h1

/-- C7 counterexample to the claim as stated: with `ε = 4` the vertices
`(0,0,0)` and `(1,0,0)` land in a common grid cell and are merged, but the
class canonical — hence the remapped value in the output mesh — is the
later-processed `(1,0,0)`, not the first-inserted `(0,0,0)`. -/
theorem c7_first_inserted_counterexample :
    repairMapping 4 [⟨0, 0, 0⟩, ⟨1, 0, 0⟩] ⟨0, 0, 0⟩ = ⟨1, 0, 0⟩ ∧
    Mesh.Repair [⟨⟨0, 0, 0⟩, ⟨1, 0, 0⟩, ⟨9, 9, 9⟩⟩] 4
        [⟨0, 0, 0⟩, ⟨1, 0, 0⟩, ⟨9, 9, 9⟩] =
      [⟨⟨1, 0, 0⟩, ⟨1, 0, 0⟩, ⟨9, 9, 9⟩⟩] ∧
    (⟨1, 0, 0⟩ : Coord3D) ≠ ⟨0, 0, 0⟩ := by
  refine ⟨?_, ?_, by norm_num [V3.mk.injEq]⟩
  · norm_num [repairMapping, repairClasses, processVertex, foundClassIds, repairHashes,
      goRound, dedupAppend, alStore, alLookup, alKeys, List.find?, List.filterMap_cons,
      List.foldl_cons, List.foldl_nil, V3.mk.injEq, List.mem_cons, List.mem_singleton]
  · show List.map _ _ = _
    rw [List.map_cons, List.map_nil]
    congr 1
    show (⟨repairMapping 4 _ ⟨0, 0, 0⟩, repairMapping 4 _ ⟨1, 0, 0⟩,
      repairMapping 4 _ ⟨9, 9, 9⟩⟩ : Triangle) = _
    congr 1 <;>
      norm_num [repairMapping, repairClasses, processVertex, foundClassIds, repairHashes,
        goRound, dedupAppend, alStore, alLookup, alKeys, List.find?, List.filterMap_cons,
        List.foldl_cons, List.foldl_nil, V3.mk.injEq, List.mem_cons, List.mem_singleton]

/-- C7 witness: the amended statement applied at the concrete two-vertex
iteration of the counterexample. -/
theorem c7_repair_merges_witness :
    ∃ k ∈ repairClasses 4 [⟨0, 0, 0⟩, ⟨1, 0, 0⟩],
      (∀ u, u ∈ k.Elements ↔
        repairConnected 4 [⟨0, 0, 0⟩, ⟨1, 0, 0⟩] ⟨0, 0, 0⟩ u) ∧
      repairMapping 4 [⟨0, 0, 0⟩, ⟨1, 0, 0⟩] ⟨0, 0, 0⟩ = k.Canonical ∧
      k.Canonical ∈ k.Elements ∧
      (∀ e ∈ k.Elements, ([⟨0, 0, 0⟩, ⟨1, 0, 0⟩] : List Coord3D).indexOf e ≤
        ([⟨0, 0, 0⟩, ⟨1, 0, 0⟩] : List Coord3D).indexOf k.Canonical) ∧
      (∀ m : Mesh, Mesh.Repair m 4 [⟨0, 0, 0⟩, ⟨1, 0, 0⟩] = m.map (fun t =>
        ⟨repairMapping 4 [⟨0, 0, 0⟩, ⟨1, 0, 0⟩] t.p0,
         repairMapping 4 [⟨0, 0, 0⟩, ⟨1, 0, 0⟩] t.p1,
         repairMapping 4 [⟨0, 0, 0⟩, ⟨1, 0, 0⟩] t.p2⟩)) :=
  c7_repair_merges_to_last_processed 4 [⟨0, 0, 0⟩, ⟨1, 0, 0⟩]
    (by norm_num [V3.mk.injEq]) ⟨0, 0, 0⟩ (by norm_num)

end RepairInvariant

end MeshRepair

section Decimator

/-!
Embedding of `decimator.Decimate` and `decimator.decimatePtrMesh`
(decimation source file).  The pointer-mesh state is abstract (`σ`);
`coordsOf` is the coordinate snapshot collected at the start of a pass,
in the Go map iteration order, and `tryRemove` is the combined check
`Criterion.canRemoveVertex(newDecVertex(c)) && attemptRemoveVertex(p, v)`
of one vertex: `some` returns the mutated mesh, `none` leaves it
unchanged (the roll-back paths).  The geometric internals of those two
functions are below the level of this claim, which is about the loop
structure; `newPtrMeshMesh` and `ptrMesh.Mesh()` preserve the triangle
set (spec §3, PointerMesh) and are the identity on the abstract state. -/

variable {σ C : Type}

/-- Embedding of `decimator.decimatePtrMesh`: one pass over the vertex
snapshot, counting eliminated vertices. -/
def decimatePtrMesh (coordsOf : σ → List C) (tryRemove : σ → C → Option σ)
    (p : σ) : σ × ℕ :=
  (coordsOf p).foldl
    (fun acc c =>
      match tryRemove acc.1 c with
      | some p2 => (p2, acc.2 + 1)
      | none => acc)
    (p, 0)

/-- Embedding of `decimator.Decimate`: builds the pointer mesh, runs the
pass once — its eliminated-count return value is discarded — and converts
back. -/
def Decimate (coordsOf : σ → List C) (tryRemove : σ → C → Option σ) (p : σ) : σ :=
  (decimatePtrMesh coordsOf tryRemove p).1

/-- Modelled from the spec: "the outer loop repeats as long as at least
one vertex was eliminated in the last pass" — the iterate-to-fixpoint
variant the specification describes, with explicit fuel. -/
def decimateLoopSpec (coordsOf : σ → List C) (tryRemove : σ → C → Option σ) :
    ℕ → σ → σ
  | 0, p => p
  | fuel + 1, p =>
    let r := decimatePtrMesh coordsOf tryRemove p
    if r.2 > 0 then decimateLoopSpec coordsOf tryRemove fuel r.1 else r.1

/-- The eliminated count of a pass never drops below its start value. -/
theorem decimate_fold_count_le (tryRemove : σ → C → Option σ) (l : List C)
    (acc : σ × ℕ) :
    acc.2 ≤ (l.foldl
      (fun acc c =>
        match tryRemove acc.1 c with
        | some p2 => (p2, acc.2 + 1)
        | none => acc)
      acc).2 := by
  induction l generalizing acc with
  | nil => exact le_refl _
  | cons c rest ih =>
    rw [List.foldl_cons]
    rcases h : tryRemove acc.1 c with _ | p2
    · exact ih acc
    · calc acc.2 ≤ acc.2 + 1 := Nat.le_succ _
        _ ≤ _ := by
          have := ih (p2, acc.2 + 1)
          simpa using this

/-- A pass that eliminates nothing leaves the state untouched and every
attempted vertex rejected. -/
theorem decimate_fold_zero (tryRemove : σ → C → Option σ) (l : List C)
    (s : σ) (n : ℕ)
    (hz : (l.foldl
      (fun acc c =>
        match tryRemove acc.1 c with
        | some p2 => (p2, acc.2 + 1)
        | none => acc)
      (s, n)).2 = n) :
    (l.foldl
      (fun acc c =>
        match tryRemove acc.1 c with
        | some p2 => (p2, acc.2 + 1)
        | none => acc)
      (s, n)).1 = s ∧ ∀ c ∈ l, tryRemove s c = none := by
  induction l generalizing s n with
  | nil => exact ⟨rfl, by simp⟩
  | cons c rest ih =>
    rw [List.foldl_cons] at hz ⊢
    rcases h : tryRemove (s, n).1 c with _ | p2
    · simp only [h] at hz ⊢
      obtain ⟨h1, h2⟩ := ih s n hz
      refine ⟨h1, ?_⟩
      intro c2 hc2
      rcases List.mem_cons.mp hc2 with rfl | hc3
      · exact h
      · exact h2 c2 hc3
    · simp only [h] at hz
      have hle := decimate_fold_count_le tryRemove rest (p2, (s, n).2 + 1)
      have h3 : n + 1 ≤ n := le_of_le_of_eq hle hz
      omega

/-- C3 (amended): `decimator.Decimate` runs the vertex-elimination pass
exactly once — the eliminated count returned by `decimatePtrMesh` is
discarded and no outer loop exists — so vertices satisfying the removal
criterion and local-operation checks may remain in the returned mesh.
What does hold of the pass is that an eliminating-nothing pass leaves the
mesh unchanged with every vertex rejected. -/
theorem c3_decimate_single_pass (coordsOf : σ → List C)
    (tryRemove : σ → C → Option σ) (p : σ) :
    Decimate coordsOf tryRemove p = (decimatePtrMesh coordsOf tryRemove p).1 ∧
    ((decimatePtrMesh coordsOf tryRemove p).2 = 0 →
      (decimatePtrMesh coordsOf tryRemove p).1 = p ∧
      ∀ c ∈ coordsOf p, tryRemove p c = none) := by
  refine ⟨rfl, fun hz => ?_⟩
  exact decimate_fold_zero tryRemove (coordsOf p) p 0 hz

/-- The vertex-removal rule of the C3 counterexample: vertex `1` can be
removed outright; vertex `0` becomes removable only once `1` is gone. -/
def exTryRemove (s : List ℕ) (c : ℕ) : Option (List ℕ) :=
  if c = 1 ∧ 1 ∈ s then some (s.erase 1)
  else if c = 0 ∧ 0 ∈ s ∧ 1 ∉ s then some (s.erase 0)
  else none

/-- C3 counterexample to the claim as stated: on the two-vertex state
`[0, 1]`, the single pass of `Decimate` eliminates vertex `1` only; the
returned state still contains vertex `0`, which satisfies the removal
rule (`tryRemove` succeeds on it), whereas the spec's repeat-while-
eliminating loop would go on to remove it. -/
theorem c3_decimate_counterexample :
    Decimate (fun s : List ℕ => s) exTryRemove [0, 1] = [0] ∧
    exTryRemove (Decimate (fun s : List ℕ => s) exTryRemove [0, 1]) 0 = some [] ∧
    decimateLoopSpec (fun s : List ℕ => s) exTryRemove 2 [0, 1] = [] := by
  refine ⟨?_, ?_, ?_⟩ <;> decide

/-- C3 witness: the amended statement applied at a concrete one-vertex
state on which the pass eliminates nothing, so the inner implication
fires. -/
theorem c3_decimate_single_pass_witness :
    (Decimate (fun s : List ℕ => s) exTryRemove [5] =
      (decimatePtrMesh (fun s : List ℕ => s) exTryRemove [5]).1 ∧
    ((decimatePtrMesh (fun s : List ℕ => s) exTryRemove [5]).2 = 0 →
      (decimatePtrMesh (fun s : List ℕ => s) exTryRemove [5]).1 = [5] ∧
      ∀ c ∈ [5], exTryRemove [5] c = none)) ∧
    (decimatePtrMesh (fun s : List ℕ => s) exTryRemove [5]).2 = 0 :=
  ⟨c3_decimate_single_pass (fun s : List ℕ => s) exTryRemove [5], by decide⟩

end Decimator

section ARAP

/-!
Embedding of the ARAP deformation data flow (`Deform`, `DeformMap`,
`deformMap`, `newARAPOperator`, `Squeeze`, `Unsqueeze`, `LinSolve`,
`indexConstraints`, `coordsToMap`, `coordsToMesh`).  Coordinates are an
abstract type `C` with decidable (bitwise) equality and a Go zero value;
the deformation pipeline moves coordinates around without inspecting
them.  The numeric kernels — the sparse Cholesky solve (spec §4.K, the
`numerical` package), and the cotangent/SVD arithmetic inside
`SqueezeDelta`, `rotations`/`Targets` and `energy` — are opaque
parameters: they only determine the values the solver returns, which the
claim says never land on a constrained index. -/

variable {C : Type} [DecidableEq C] [Inhabited C]

/-- Opaque numeric services consumed by the ARAP loop. -/
structure arapServices (C : Type) where
  cholSolve : List C → List C
  squeezeDelta : List C
  add : C → C → C
  targetsOf : List C → List C
  energyOf : List C → ℚ
  laplaceTargets : List C

/-- The constrained-index bookkeeping of `arapOperator`. -/
structure arapOperator (C : Type) where
  constraints : List (ℕ × C)
  squeezedToFull : List ℕ
  fullToSqueezed : List (Option ℕ)

/-- Embedding of `newARAPOperator`: walk the coordinate indices, sending
unconstrained ones to the squeezed space and marking constrained ones
(`-1` in Go, `none` here). -/
def newARAPOperator (N : ℕ) (constraints : List (ℕ × C)) : arapOperator C :=
  let built := (List.range N).foldl
    (fun (acc : List ℕ × List (Option ℕ)) i =>
      if (alLookup constraints i).isSome then (acc.1, acc.2 ++ [none])
      else (acc.1 ++ [i], acc.2 ++ [some acc.1.length]))
    ([], [])
  ⟨constraints, built.1, built.2⟩

/-- Embedding of `arapOperator.Squeeze`. -/
def Squeeze (a : arapOperator C) (full : List C) : List C :=
  a.squeezedToFull.map (fun j => full.getD j default)

/-- The indexed loop of `arapOperator.Unsqueeze`. -/
def unsqueezeAux (constraints : List (ℕ × C)) (squeezed : List C) :
    List (Option ℕ) → ℕ → List C
  | [], _ => []
  | s :: rest, i =>
    (match s with
     | some k => squeezed.getD k default
     | none => (alLookup constraints i).getD default) ::
      unsqueezeAux constraints squeezed rest (i + 1)

/-- Embedding of `arapOperator.Unsqueeze`: constrained indices are filled
with their exact constraint targets. -/
def Unsqueeze (a : arapOperator C) (squeezed : List C) : List C :=
  unsqueezeAux a.constraints squeezed a.fullToSqueezed 0

/-- Embedding of `arapOperator.LinSolve`: either the all-constrained
short-circuit, or the Cholesky solve of the squeezed system; both paths
return through `Unsqueeze`. -/
def LinSolve (svc : arapServices C) (a : arapOperator C) (b : List C) : List C :=
  if a.squeezedToFull.isEmpty then Unsqueeze a (Squeeze a b)
  else Unsqueeze a
    (svc.cholSolve (List.zipWith svc.add (Squeeze a b) svc.squeezeDelta))

/-- The iteration of `ARAP.deformMap`, with the remaining iteration count
made explicit (`remaining = maxIters - iter`). -/
def deformLoop (svc : arapServices C) (a : arapOperator C) (minIters : ℕ)
    (tol : ℚ) : ℕ → ℕ → List C → ℚ → List C
  | 0, _, current, _ => current
  | remaining + 1, iter, current, lastEnergy =>
    let next := LinSolve svc a (svc.targetsOf current)
    let energy := svc.energyOf next
    if iter + 1 ≥ minIters ∧ 1 - energy / lastEnergy < tol then next
    else deformLoop svc a minIters tol remaining (iter + 1) next energy

/-- Embedding of `ARAP.deformMap`: Laplacian initial guess when none is
given, constraint enforcement on the initialization, then the
local/global alternation. -/
def deformMap (svc : arapServices C) (a : arapOperator C)
    (maxIters minIters : ℕ) (tol : ℚ) (initialGuess : Option (List C)) : List C :=
  let ig := match initialGuess with
    | none => LinSolve svc a svc.laplaceTargets
    | some g => g
  let current := Unsqueeze a (Squeeze a ig)
  deformLoop svc a minIters tol maxIters 0 current (svc.energyOf current)

/-- Embedding of `ARAP.indexConstraints`: convert constraint keys to
coordinate indices (panics on foreign keys; the theorems assume all keys
are mesh vertices, as the claim does). -/
def indexConstraints (coords : List C) (cs : List (C × C)) : List (ℕ × C) :=
  cs.map (fun p => (coords.indexOf p.1, p.2))

/-- Embedding of `ARAP.coordsToMap`: write `coords[i] ↦ s[i]` into a Go
map. -/
def coordsToMap (coords : List C) (s : List C) : List (C × C) :=
  (coords.zip s).foldl (fun m p => alStore m p.1 p.2) []

/-- Embedding of `ARAP.coordsToMesh`: rebuild each triangle from the
output slice through the stored vertex indices. -/
def coordsToMesh (s : List C) (tris : List (ℕ × ℕ × ℕ)) : List (C × C × C) :=
  tris.map (fun t => (s.getD t.1 default, s.getD t.2.1 default, s.getD t.2.2 default))

/-- Embedding of `ARAP.Deform` (nil initial guess). -/
def Deform (svc : arapServices C) (coords : List C) (tris : List (ℕ × ℕ × ℕ))
    (cs : List (C × C)) (maxIters minIters : ℕ) (tol : ℚ) : List (C × C × C) :=
  coordsToMesh
    (deformMap svc (newARAPOperator coords.length (indexConstraints coords cs))
      maxIters minIters tol none) tris

/-- Embedding of `ARAP.DeformMap`. -/
def DeformMap (svc : arapServices C) (coords : List C) (cs : List (C × C))
    (maxIters minIters : ℕ) (tol : ℚ) (initialGuess : Option (List C)) :
    List (C × C) :=
  coordsToMap coords
    (deformMap svc (newARAPOperator coords.length (indexConstraints coords cs))
      maxIters minIters tol initialGuess)

/-- The marker list built by `newARAPOperator` tags exactly the
constrained indices with `none`. -/
theorem newARAPOperator_snd_eq (constraints : List (ℕ × C)) :
    ∀ (l : List ℕ), l.Nodup → ∀ (acc : List ℕ × List (Option ℕ)),
      ∃ f : ℕ → ℕ,
        (l.foldl
          (fun (acc : List ℕ × List (Option ℕ)) i =>
            if (alLookup constraints i).isSome then (acc.1, acc.2 ++ [none])
            else (acc.1 ++ [i], acc.2 ++ [some acc.1.length]))
          acc).2 =
        acc.2 ++ l.map (fun i =>
          if (alLookup constraints i).isSome then none else some (f i)) := by
  intro l
  induction l with
  | nil => exact fun _ acc => ⟨fun _ => 0, by simp⟩
  | cons i rest ih =>
    intro hnd acc
    obtain ⟨hi, hrest⟩ := List.nodup_cons.mp hnd
    by_cases hc : (alLookup constraints i).isSome
    · obtain ⟨f, hf⟩ := ih hrest (acc.1, acc.2 ++ [none])
      refine ⟨f, ?_⟩
      rw [List.foldl_cons, if_pos hc, hf]
      simp [hc]
    · obtain ⟨f, hf⟩ := ih hrest (acc.1 ++ [i], acc.2 ++ [some acc.1.length])
      refine ⟨Function.update f i acc.1.length, ?_⟩
      rw [List.foldl_cons, if_neg hc, hf]
      have hmaps : rest.map (fun j =>
            if (alLookup constraints j).isSome then none else some (f j)) =
          rest.map (fun j => if (alLookup constraints j).isSome then none
            else some (Function.update f i acc.1.length j)) := by
        apply List.map_congr_left
        intro j hj
        have hne : j ≠ i := fun he => hi (he ▸ hj)
        rw [Function.update_noteq hne]
      rw [List.map_cons, if_neg hc, Function.update_same, ← hmaps]
      simp

theorem unsqueezeAux_length (constraints : List (ℕ × C)) (squeezed : List C)
    (f2s : List (Option ℕ)) (start : ℕ) :
    (unsqueezeAux constraints squeezed f2s start).length = f2s.length := by
  induction f2s generalizing start with
  | nil => rfl
  | cons s rest ih => simp [unsqueezeAux, ih]

theorem unsqueezeAux_getD (constraints : List (ℕ × C)) (squeezed : List C) :
    ∀ (f2s : List (Option ℕ)) (start i : ℕ), i < f2s.length →
      (unsqueezeAux constraints squeezed f2s start).getD i default =
        match f2s.getD i none with
        | some k => squeezed.getD k default
        | none => (alLookup constraints (start + i)).getD default := by
  intro f2s
  induction f2s with
  | nil => intro start i hi; simp at hi
  | cons s rest ih =>
    intro start i hi
    cases i with
    | zero => simp [unsqueezeAux]
    | succ j =>
      have hj : j < rest.length := by simpa using hi
      have := ih (start + 1) j hj
      have harith : start + 1 + j = start + (j + 1) := by omega
      rw [harith] at this
      simpa [unsqueezeAux] using this

/-- Any `Unsqueeze` image carries every constraint target exactly. -/
theorem unsqueeze_exact (N : ℕ) (constraints : List (ℕ × C)) (squeezed : List C)
    {i : ℕ} (hi : i < N) {t : C} (ht : alLookup constraints i = some t) :
    (Unsqueeze (newARAPOperator N constraints) squeezed).getD i default = t := by
  obtain ⟨f, hf⟩ := newARAPOperator_snd_eq constraints (List.range N)
    (List.nodup_range N) ([], [])
  have hf2s : (newARAPOperator N constraints : arapOperator C).fullToSqueezed =
      (List.range N).map (fun j =>
        if (alLookup constraints j).isSome then none else some (f j)) := by
    show ((List.range N).foldl
      (fun (acc : List ℕ × List (Option ℕ)) i =>
        if (alLookup constraints i).isSome then (acc.1, acc.2 ++ [none])
        else (acc.1 ++ [i], acc.2 ++ [some acc.1.length]))
      ([], [])).2 = _
    simpa using hf
  have hlen : ((newARAPOperator N constraints : arapOperator C).fullToSqueezed).length
      = N := by
    rw [hf2s]
    simp
  have hgetd : ((newARAPOperator N constraints : arapOperator C).fullToSqueezed).getD
      i none = none := by
    rw [hf2s, List.getD_eq_getElem?_getD]
    rw [List.getElem?_map]
    rw [List.getElem?_range hi]
    simp [ht]
  rw [Unsqueeze, unsqueezeAux_getD _ _ _ 0 i (by rw [hlen]; exact hi), hgetd]
  show (alLookup constraints (0 + i)).getD default = t
  rw [Nat.zero_add, ht]
  rfl

/-- Every state of the deformation loop is an `Unsqueeze` image. -/
theorem deformLoop_shape (svc : arapServices C) (a : arapOperator C)
    (minIters : ℕ) (tol : ℚ) :
    ∀ (remaining iter : ℕ) (current : List C) (lastEnergy : ℚ),
      (∃ s, current = Unsqueeze a s) →
      ∃ s, deformLoop svc a minIters tol remaining iter current lastEnergy =
        Unsqueeze a s := by
  intro remaining
  induction remaining with
  | zero => exact fun iter current le h => by simpa [deformLoop] using h
  | succ rem ih =>
    intro iter current lastEnergy _
    rw [deformLoop]
    have hlin : ∃ s, LinSolve svc a (svc.targetsOf current) = Unsqueeze a s := by
      rw [LinSolve]
      by_cases he : a.squeezedToFull.isEmpty
      · rw [if_pos he]
        exact ⟨_, rfl⟩
      · rw [if_neg he]
        exact ⟨_, rfl⟩
    obtain ⟨s, hs⟩ := hlin
    by_cases hstop : iter + 1 ≥ minIters ∧
        1 - svc.energyOf (LinSolve svc a (svc.targetsOf current)) / lastEnergy < tol
    · rw [if_pos hstop]
      exact ⟨s, hs⟩
    · rw [if_neg hstop]
      exact ih (iter + 1) _ _ ⟨s, hs⟩

/-- The result of `deformMap` is an `Unsqueeze` image. -/
theorem deformMap_shape (svc : arapServices C) (a : arapOperator C)
    (maxIters minIters : ℕ) (tol : ℚ) (ig : Option (List C)) :
    ∃ s, deformMap svc a maxIters minIters tol ig = Unsqueeze a s :=
  deformLoop_shape svc a minIters tol maxIters 0 _ _ ⟨_, rfl⟩

/-- Indexed constraint lookup recovers the target of a constrained
coordinate. -/
theorem indexConstraints_lookup (coords : List C) (hnd : coords.Nodup)
    (cs : List (C × C)) (hkeys : ∀ p ∈ cs, p.1 ∈ coords)
    (hknd : (cs.map Prod.fst).Nodup) {c t : C} (hct : (c, t) ∈ cs) :
    alLookup (indexConstraints coords cs) (coords.indexOf c) = some t := by
  induction cs with
  | nil => simp at hct
  | cons p rest ih =>
    obtain ⟨hphd, hptl⟩ := List.nodup_cons.mp hknd
    have hcmem : c ∈ coords := hkeys (c, t) hct
    have hpmem : p.1 ∈ coords := hkeys p (List.mem_cons_self p rest)
    rw [indexConstraints, List.map_cons, alLookup]
    by_cases hpc : p.1 = c
    · rw [if_pos (by rw [hpc])]
      rcases List.mem_cons.mp hct with h1 | h1
      · rw [← h1]
      · exact absurd (hpc ▸ List.mem_map_of_mem Prod.fst h1 : p.1 ∈ rest.map Prod.fst)
          hphd
    · have hne : coords.indexOf p.1 ≠ coords.indexOf c := by
        intro he
        exact hpc ((List.indexOf_inj hpmem hcmem).mp he)
      rw [if_neg hne]
      have hct2 : (c, t) ∈ rest := by
        rcases List.mem_cons.mp hct with h1 | h1
        · exact absurd (congrArg Prod.fst h1.symm) hpc
        · exact h1
      exact ih (fun q hq => hkeys q (List.mem_cons_of_mem p hq)) hptl hct2

/-- Lookup through the zip of vertices and outputs. -/
theorem alLookup_zip (coords : List C) (out : List C) (c : C)
    (hmem : c ∈ coords) (hnd : coords.Nodup)
    (hlen : coords.indexOf c < out.length) :
    alLookup (coords.zip out) c = some (out.getD (coords.indexOf c) default) := by
  induction coords generalizing out with
  | nil => simp at hmem
  | cons a rest ih =>
    obtain ⟨hahd, hatl⟩ := List.nodup_cons.mp hnd
    cases out with
    | nil => simp at hlen
    | cons o orest =>
      by_cases hac : a = c
      · rw [hac, List.indexOf_cons_self]
        simp [alLookup]
      · have hcr : c ∈ rest := by
          rcases List.mem_cons.mp hmem with h1 | h1
          · exact absurd h1.symm hac
          · exact h1
        rw [List.indexOf_cons_ne rest (fun h => hac (by simpa using h))] at hlen ⊢
        rw [List.zip_cons_cons, alLookup, if_neg hac]
        have := ih orest hcr hatl (by simpa using hlen)
        simpa using this

/-- Lookup through the Go-map write loop of `coordsToMap`. -/
theorem alLookup_storePairs {pairs : List (C × C)} (m0 : List (C × C)) (k : C)
    (hnd : (alKeys pairs).Nodup) :
    alLookup (pairs.foldl (fun m p => alStore m p.1 p.2) m0) k =
      match alLookup pairs k with
      | some v => some v
      | none => alLookup m0 k := by
  induction pairs generalizing m0 with
  | nil => simp [alLookup]
  | cons p rest ih =>
    obtain ⟨hphd, hptl⟩ := List.nodup_cons.mp hnd
    rw [List.foldl_cons, ih (alStore m0 p.1 p.2) hptl]
    by_cases hk : p.1 = k
    · have hnr : k ∉ alKeys rest := fun hmem => hphd (hk ▸ hmem)
      rw [alLookup_eq_none_iff.mpr hnr, alLookup_alStore, if_pos hk, alLookup,
        if_pos hk]
    · rw [alLookup, if_neg hk]
      rcases ho : alLookup rest k with _ | v
      · rw [alLookup_alStore, if_neg hk]
      · rfl

theorem newARAPOperator_f2s_length (N : ℕ) (constraints : List (ℕ × C)) :
    ((newARAPOperator N constraints : arapOperator C).fullToSqueezed).length = N := by
  obtain ⟨f, hf⟩ := newARAPOperator_snd_eq constraints (List.range N)
    (List.nodup_range N) ([], [])
  have hf2s : (newARAPOperator N constraints : arapOperator C).fullToSqueezed =
      (List.range N).map (fun j =>
        if (alLookup constraints j).isSome then none else some (f j)) := by
    show ((List.range N).foldl
      (fun (acc : List ℕ × List (Option ℕ)) i =>
        if (alLookup constraints i).isSome then (acc.1, acc.2 ++ [none])
        else (acc.1 ++ [i], acc.2 ++ [some acc.1.length]))
      ([], [])).2 = _
    simpa using hf
  rw [hf2s]
  simp

/-- C5: for every ARAP instance whose constraint keys are all mesh
vertices, `Deform` and `DeformMap` assign to each constrained source
coordinate exactly (bitwise) its target coordinate, for every constraint
pair and any iteration budget. -/
theorem c5_arap_constraints_exact (svc : arapServices C)
    (coords : List C) (hnd : coords.Nodup)
    (constraints : List (C × C)) (hkeys : ∀ p ∈ constraints, p.1 ∈ coords)
    (hknd : (constraints.map Prod.fst).Nodup)
    (maxIters minIters : ℕ) (tol : ℚ) (ig : Option (List C))
    (tris : List (ℕ × ℕ × ℕ)) (c t : C) (hct : (c, t) ∈ constraints) :
    (deformMap svc (newARAPOperator coords.length (indexConstraints coords constraints))
        maxIters minIters tol ig).getD (coords.indexOf c) default = t ∧
    alLookup (DeformMap svc coords constraints maxIters minIters tol ig) c = some t ∧
    Deform svc coords tris constraints maxIters minIters tol =
      coordsToMesh (deformMap svc
        (newARAPOperator coords.length (indexConstraints coords constraints))
        maxIters minIters tol none) tris := by
  have hcmem : c ∈ coords := hkeys (c, t) hct
  have hidx : coords.indexOf c < coords.length := List.indexOf_lt_length.mpr hcmem
  have hlook := indexConstraints_lookup coords hnd constraints hkeys hknd hct
  obtain ⟨s, hs⟩ := deformMap_shape svc
    (newARAPOperator coords.length (indexConstraints coords constraints))
    maxIters minIters tol ig
  have hexact : (deformMap svc
      (newARAPOperator coords.length (indexConstraints coords constraints))
      maxIters minIters tol ig).getD (coords.indexOf c) default = t := by
    rw [hs]
    exact unsqueeze_exact coords.length _ s hidx hlook
  refine ⟨hexact, ?_, rfl⟩
  have hlen_out : (deformMap svc
      (newARAPOperator coords.length (indexConstraints coords constraints))
      maxIters minIters tol ig).length = coords.length := by
    rw [hs, Unsqueeze, unsqueezeAux_length, newARAPOperator_f2s_length]
  rw [DeformMap, coordsToMap]
  have hznd : (alKeys (coords.zip (deformMap svc
      (newARAPOperator coords.length (indexConstraints coords constraints))
      maxIters minIters tol ig))).Nodup := by
    show ((coords.zip _).map Prod.fst).Nodup
    rw [List.map_fst_zip _ _ (le_of_eq hlen_out.symm)]
    exact hnd
  rw [alLookup_storePairs [] c hznd,
    alLookup_zip coords _ c hcmem hnd (by rw [hlen_out]; exact hidx), hexact]

/-- C5 witness: the exactness statement applied at a concrete two-vertex
instance with one constrained vertex and trivial numeric services. -/
theorem c5_arap_constraints_exact_witness :
    (deformMap (⟨id, [], Nat.add, id, fun _ => 0, []⟩ : arapServices ℕ)
        (newARAPOperator 2 (indexConstraints [10, 20] [(10, 7)]))
        0 0 0 (some [1, 2])).getD (([10, 20] : List ℕ).indexOf 10) default = 7 ∧
    alLookup (DeformMap (⟨id, [], Nat.add, id, fun _ => 0, []⟩ : arapServices ℕ)
      [10, 20] [(10, 7)] 0 0 0 (some [1, 2])) 10 = some 7 ∧
    Deform (⟨id, [], Nat.add, id, fun _ => 0, []⟩ : arapServices ℕ)
        [10, 20] [(0, 0, 1)] [(10, 7)] 0 0 0 =
      coordsToMesh (deformMap (⟨id, [], Nat.add, id, fun _ => 0, []⟩ : arapServices ℕ)
        (newARAPOperator ([10, 20] : List ℕ).length (indexConstraints [10, 20] [(10, 7)]))
        0 0 0 none) [(0, 0, 1)] :=
  c5_arap_constraints_exact ⟨id, [], Nat.add, id, fun _ => 0, []⟩
    [10, 20] (by decide) [(10, 7)] (by decide) (by decide) 0 0 0 (some [1, 2])
    [(0, 0, 1)] 10 7 (by decide)

end ARAP

section Floater97

variable {C : Type} [DecidableEq C]
variable {K V : Type} [DecidableEq K]

/-- A 2D coordinate (`model2d.Coord` / `numerical.Vec2`). -/
abbrev Vec2 := ℚ × ℚ

/-- `Vec2.Add`. -/
def vec2Add (a b : Vec2) : Vec2 := (a.1 + b.1, a.2 + b.2)

/-- `Coord.Scale`. -/
def vec2Scale (s : ℚ) (a : Vec2) : Vec2 := (s * a.1, s * a.2)

/-- The vertex array of a triangle, `for _, c := range t`. -/
def triVerts (t : C × C × C) : List C := [t.1, t.2.1, t.2.2]

/-- The ordered index pairs `(t[i], t[j])`, `i ≠ j`, in the order of the
two nested loops of the neighbor-collection pass of `floater97`. -/
def triNeighborPairs (t : C × C × C) : List (C × C) :=
  [(t.1, t.2.1), (t.1, t.2.2), (t.2.1, t.1), (t.2.1, t.2.2),
   (t.2.2, t.1), (t.2.2, t.2.1)]

/-- One `neighbors.Store` step of `floater97`: append `c1` to the neighbor
list of `c` unless it is already present (the `found` scan). -/
def addNeighbor (nb : List (C × List C)) (c c1 : C) : List (C × List C) :=
  let cur := (alLookup nb c).getD []
  if c1 ∈ cur then nb else alStore nb c (cur ++ [c1])

/-- The `m.Iterate` loop of `floater97` building the neighbor map. -/
def buildNeighbors (m : List (C × C × C)) : List (C × List C) :=
  m.foldl (fun nb t => (triNeighborPairs t).foldl
    (fun nb2 p => addNeighbor nb2 p.1 p.2) nb) []

/-- `m.VertexSlice()`: the distinct vertices of the mesh, each once. -/
def vertexSlice (m : List (C × C × C)) : List C :=
  (m.flatMap triVerts).foldl (fun acc c => if c ∈ acc then acc else acc ++ [c]) []

/-- The non-boundary vertex list of `floater97`: the mesh vertices on
which `boundary.Load` fails, in `VertexSlice` order (the rows of the
linear system). -/
def nonBoundary (m : List (C × C × C)) (boundary : List (C × Vec2)) : List C :=
  (vertexSlice m).filter (fun v => (alLookup boundary v).isNone)

/-- The inner neighbor loop of one row of the `floater97` system:
accumulates the total weight, the right-hand-side bias of the row, and the
off-diagonal sparse-matrix entries; `none` models the panics on a missing
or negative edge weight. -/
def floaterRow (w : C → C → Option ℚ) (boundary : List (C × Vec2))
    (nbIdx : List (C × ℕ)) (center : C) (neighborsOf : List C) :
    Option (ℚ × Vec2 × List (ℕ × ℚ)) :=
  neighborsOf.foldl
    (fun acc neighbor =>
      match acc with
      | none => none
      | some (tw, b, ents) =>
        match w center neighbor with
        | none => none
        | some weight =>
          if weight < 0 then none
          else
            match alLookup nbIdx neighbor with
            | none => some (tw + weight,
                vec2Add b (vec2Scale (-weight)
                  ((alLookup boundary neighbor).getD (0, 0))),
                ents)
            | some j => some (tw + weight, b, ents ++ [(j, weight)]))
    (some (0, (0, 0), []))

/-- One full row `i` of the system: the `matrix.Set(i, i, -1)` write, the
neighbor loop, and the total-weight panic check `|w - 1| > 1e-4`. -/
def floaterRowChecked (w : C → C → Option ℚ) (boundary : List (C × Vec2))
    (nbs : List (C × List C)) (nbIdx : List (C × ℕ)) (i : ℕ) (center : C) :
    Option (Vec2 × List ((ℕ × ℕ) × ℚ)) :=
  match floaterRow w boundary nbIdx center ((alLookup nbs center).getD []) with
  | none => none
  | some (tw, b, ents) =>
    if |tw - 1| > 1 / 10000 then none
    else some (b, ((i, i), -1) :: ents.map (fun e => ((i, e.1), e.2)))

/-- The row loop of `floater97` over the enumerated non-boundary
vertices, building the bias vector and the sparse matrix. -/
def floaterSystem (w : C → C → Option ℚ) (boundary : List (C × Vec2))
    (nbs : List (C × List C)) (nbIdx : List (C × ℕ))
    (centers : List (ℕ × C)) : Option (List Vec2 × List ((ℕ × ℕ) × ℚ)) :=
  centers.foldl
    (fun acc p =>
      match acc with
      | none => none
      | some (bias, mat) =>
        match floaterRowChecked w boundary nbs nbIdx p.1 p.2 with
        | none => none
        | some (b, ents) => some (bias ++ [b], mat ++ ents))
    (some ([], []))

/-- Writing one solved component back into the `solution` array
(`solution[j][i] = x`); `none` models the index-out-of-range panic when
the solver returns a vector longer than the system, and a shorter vector
leaves the tail untouched, as the Go `range` does. -/
def writeComp : List Vec2 → List ℚ → Bool → Option (List Vec2)
  | sol, [], _ => some sol
  | [], _ :: _, _ => none
  | v :: sol, x :: out, isFirst =>
    match writeComp sol out isFirst with
    | none => none
    | some rest => some ((if isFirst then (x, v.2) else (v.1, x)) :: rest)

/-- The initial-guess vector built from `previousParam` when present. -/
def floaterInitGuess (prev : Option (List (C × Vec2))) (nb : List C)
    (isFirst : Bool) : Option (List ℚ) :=
  match prev with
  | none => none
  | some pm => some (nb.map (fun p =>
      if isFirst then ((alLookup pm p).getD (0, 0)).1
      else ((alLookup pm p).getD (0, 0)).2))

/-- `floater97` (parameterization.go): neighbors and non-boundary rows are
built, the sparse system is assembled (with its three panics as `none`),
the abstract solver is run once per 2D component, and the result map
stores every boundary pair first and then the solution at the
non-boundary vertices. -/
def floater97 (m : List (C × C × C)) (boundary : List (C × Vec2))
    (w : C → C → Option ℚ)
    (solver : List ((ℕ × ℕ) × ℚ) → List ℚ → Option (List ℚ) → List ℚ)
    (prev : Option (List (C × Vec2))) : Option (List (C × Vec2)) :=
  let nbs := buildNeighbors m
  let nb := nonBoundary m boundary
  let nbIdx := nb.zip (List.range nb.length)
  match floaterSystem w boundary nbs nbIdx ((List.range nb.length).zip nb) with
  | none => none
  | some (bias, mat) =>
    let sol0 : List Vec2 := List.replicate nb.length (0, 0)
    match writeComp sol0
        (solver mat (bias.map Prod.fst) (floaterInitGuess prev nb true)) true with
    | none => none
    | some sol1 =>
      match writeComp sol1
          (solver mat (bias.map Prod.snd) (floaterInitGuess prev nb false)) false with
      | none => none
      | some sol2 =>
        let base := boundary.foldl (fun r p => alStore r p.1 p.2) []
        some ((nb.zip sol2).foldl (fun r p => alStore r p.1 p.2) base)

/-- Lookup of a key in an association list with duplicate-free keys finds
the stored value. -/
theorem alLookup_eq_some_of_mem_nodup {l : List (K × V)} {k : K} {v : V}
    (hnd : (alKeys l).Nodup) (hm : (k, v) ∈ l) : alLookup l k = some v := by
  induction l with
  | nil => simp at hm
  | cons p rest ih =>
    have hcons : alKeys (p :: rest) = p.1 :: alKeys rest := by simp [alKeys]
    rw [hcons] at hnd
    obtain ⟨hphd, hptl⟩ := List.nodup_cons.mp hnd
    rcases List.mem_cons.mp hm with h1 | h1
    · rw [← h1]
      simp [alLookup]
    · have hne : p.1 ≠ k := by
        intro he
        exact hphd (he ▸ List.mem_map.mpr ⟨(k, v), h1, rfl⟩)
      rw [alLookup, if_neg hne]
      exact ih hptl h1

/-- A Go-map store loop over keys avoiding `k` leaves the lookup of `k`
unchanged. -/
theorem alLookup_foldStore_not_mem {pairs : List (K × V)} (m0 : List (K × V))
    {k : K} (hk : k ∉ alKeys pairs) :
    alLookup (pairs.foldl (fun r p => alStore r p.1 p.2) m0) k = alLookup m0 k := by
  induction pairs generalizing m0 with
  | nil => rfl
  | cons p rest ih =>
    have hcons : alKeys (p :: rest) = p.1 :: alKeys rest := by simp [alKeys]
    rw [hcons] at hk
    have hk1 : p.1 ≠ k := fun h => hk (h ▸ List.mem_cons_self _ _)
    have hk2 : k ∉ alKeys rest := fun h => hk (List.mem_cons_of_mem _ h)
    rw [List.foldl_cons, ih (alStore m0 p.1 p.2) hk2, alLookup_alStore, if_neg hk1]

/-- A Go-map store loop over duplicate-free keys stores each pair. -/
theorem alLookup_foldStore_mem {pairs : List (K × V)} (m0 : List (K × V))
    {k : K} {v : V} (hnd : (alKeys pairs).Nodup) (hm : (k, v) ∈ pairs) :
    alLookup (pairs.foldl (fun r p => alStore r p.1 p.2) m0) k = some v := by
  induction pairs generalizing m0 with
  | nil => simp at hm
  | cons p rest ih =>
    have hcons : alKeys (p :: rest) = p.1 :: alKeys rest := by simp [alKeys]
    rw [hcons] at hnd
    obtain ⟨hphd, hptl⟩ := List.nodup_cons.mp hnd
    rcases List.mem_cons.mp hm with h1 | h1
    · have hp1 : p.1 = k := by rw [← h1]
      have hp2 : p.2 = v := by rw [← h1]
      have hknr : k ∉ alKeys rest := hp1 ▸ hphd
      rw [List.foldl_cons, alLookup_foldStore_not_mem _ hknr, alLookup_alStore,
        hp1, hp2, if_pos rfl]
    · rw [List.foldl_cons]
      exact ih (alStore m0 p.1 p.2) hptl h1

/-- Any successful run of `floater97` produces the two-phase store: all
boundary pairs first, then some solution values keyed by the non-boundary
vertices only. -/
theorem floater97_shape (m : List (C × C × C)) (boundary : List (C × Vec2))
    (w : C → C → Option ℚ)
    (solver : List ((ℕ × ℕ) × ℚ) → List ℚ → Option (List ℚ) → List ℚ)
    (prev : Option (List (C × Vec2))) (res : List (C × Vec2))
    (hres : floater97 m boundary w solver prev = some res) :
    ∃ sol : List Vec2,
      res = ((nonBoundary m boundary).zip sol).foldl
          (fun r p => alStore r p.1 p.2)
          (boundary.foldl (fun r p => alStore r p.1 p.2) []) := by
  simp only [floater97] at hres
  split at hres
  · exact absurd hres (by simp)
  · split at hres
    · exact absurd hres (by simp)
    · split at hres
      · exact absurd hres (by simp)
      · exact ⟨_, (Option.some_inj.mp hres).symm⟩

/-- C9: a successful `floater97` maps every boundary vertex exactly
(bitwise) to its prescribed 2D coordinate, and the linear-solver output is
keyed only at non-boundary vertices, which never collide with a boundary
key. -/
theorem c9_floater97_boundary_exact
    (m : List (C × C × C)) (boundary : List (C × Vec2))
    (w : C → C → Option ℚ)
    (solver : List ((ℕ × ℕ) × ℚ) → List ℚ → Option (List ℚ) → List ℚ)
    (prev : Option (List (C × Vec2)))
    (hbnd : (alKeys boundary).Nodup)
    (res : List (C × Vec2)) (hres : floater97 m boundary w solver prev = some res)
    (k : C) (v : Vec2) (hkv : (k, v) ∈ boundary) :
    alLookup res k = some v ∧
      ∀ x ∈ nonBoundary m boundary, alLookup boundary x = none := by
  have hnbnone : ∀ x ∈ nonBoundary m boundary, alLookup boundary x = none := by
    intro x hx
    simp only [nonBoundary] at hx
    have hmf := List.mem_filter.mp hx
    simpa [Option.isNone_iff_eq_none] using hmf.2
  refine ⟨?_, hnbnone⟩
  obtain ⟨sol, hshape⟩ := floater97_shape m boundary w solver prev res hres
  rw [hshape]
  have hbk : alLookup boundary k = some v := alLookup_eq_some_of_mem_nodup hbnd hkv
  have hknb : k ∉ alKeys ((nonBoundary m boundary).zip sol) := by
    intro hk
    simp only [alKeys] at hk
    obtain ⟨pr, hpr, hpr1⟩ := List.mem_map.mp hk
    have hkin : k ∈ nonBoundary m boundary := hpr1 ▸ (List.of_mem_zip hpr).1
    rw [hnbnone k hkin] at hbk
    exact Option.noConfusion hbk
  rw [alLookup_foldStore_not_mem _ hknb]
  exact alLookup_foldStore_mem [] hbnd hkv

/-- C9 witness: a single all-boundary triangle; the result is exactly the
boundary stores and every boundary lookup returns the prescribed value. -/
theorem c9_floater97_boundary_exact_witness :
    alLookup [((0 : ℕ), ((0 : ℚ), (0 : ℚ))), (1, (1, 0)), (2, (0, 1))] 0
        = some ((0 : ℚ), (0 : ℚ)) ∧
      ∀ x ∈ nonBoundary [((0 : ℕ), (1 : ℕ), (2 : ℕ))]
          [((0 : ℕ), ((0 : ℚ), (0 : ℚ))), (1, (1, 0)), (2, (0, 1))],
        alLookup [((0 : ℕ), ((0 : ℚ), (0 : ℚ))), (1, (1, 0)), (2, (0, 1))] x
          = none :=
  c9_floater97_boundary_exact [((0 : ℕ), (1 : ℕ), (2 : ℕ))]
    [((0 : ℕ), ((0 : ℚ), (0 : ℚ))), (1, (1, 0)), (2, (0, 1))]
    (fun _ _ => some 1) (fun _ _ _ => []) none (by decide)
    [((0 : ℕ), ((0 : ℚ), (0 : ℚ))), (1, (1, 0)), (2, (0, 1))] (by rfl)
    0 ((0 : ℚ), (0 : ℚ)) (List.mem_cons_self _ _)

end Floater97

section Hierarchy

/-- A mesh-hierarchy node (`MeshHierarchy`): the root mesh of the
(sub-)hierarchy and its children.  The Go `MeshSolid` field is always
built from the node's mesh by a solid constructor over floats
(`NewColliderSolid` of a grouped collider), so the model stores the mesh
and the algorithms take the constructor as the oracle `solidOf`. -/
inductive MHier : Type where
  | node : List Triangle → List MHier → MHier

/-- The `Mesh` field of a hierarchy node. -/
def MHier.mesh : MHier → List Triangle
  | .node m _ => m

/-- `MeshHierarchy.FullMesh`: the root mesh re-combined with the full
meshes of all children, as a triangle multiset. -/
def MHier.FullMesh : MHier → List Triangle
  | .node m cs => m ++ (cs.attach.map (fun c => MHier.FullMesh c.1)).flatten
decreasing_by
  have := List.sizeOf_lt_of_mem c.2
  simp [MHier.node.sizeOf_spec]
  omega

/-- `Mesh.MapCoords(f)`: apply `f` to every vertex of every triangle. -/
def meshMapCoords (f : Coord3D → Coord3D) (m : List Triangle) : List Triangle :=
  m.map (fun t => ⟨f t.p0, f t.p1, f t.p2⟩)

/-- `MeshHierarchy.MapCoords`: map the coordinates of every mesh in the
tree; each node's solid is rebuilt from its mapped mesh by the abstract
constructor, so only the meshes are carried. -/
def MHier.mapCoords (f : Coord3D → Coord3D) : MHier → MHier
  | .node m cs =>
    .node (meshMapCoords f m) (cs.attach.map (fun c => MHier.mapCoords f c.1))
decreasing_by
  have := List.sizeOf_lt_of_mem c.2
  simp [MHier.node.sizeOf_spec]
  omega

/-- The inverse dictionary of `misalignMesh`: while the rotated mesh is
built, every original vertex `c` is recorded under its image `rot c`; a
later duplicate image overwrites an earlier entry, as the Go map write
does. -/
def misalignInv (rot : Coord3D → Coord3D) (m : List Triangle) :
    List (Coord3D × Coord3D) :=
  (m.flatMap Tri.vertices).foldl (fun mp c => alStore mp (rot c) c) []

/-- `misalignMesh`: the rotated mesh and the dictionary-backed inverse.
The Go `inv` panics on a key miss; the default of the lookup models the
panic value and is provably never reached on the vertices produced by
`MeshToHierarchy`. -/
def misalignMesh (rot : Coord3D → Coord3D) (m : List Triangle) :
    List Triangle × (Coord3D → Coord3D) :=
  (meshMapCoords rot m,
   fun c => (alLookup (misalignInv rot m) c).getD (V3.mk 0 0 0))

/-- Triangle adjacency of `removeAllConnected`: the triangles sharing a
vertex (`t.Coords` / `c.Triangles` in the `ptrMesh`). -/
def sharesVertex (a b : Triangle) : Bool :=
  (Tri.vertices a).any (fun vtx => Tri.containsVertex b vtx)

/-- The breadth-first growth of `removeAllConnected`: each round moves
every triangle of `rest` sharing a vertex with the component grown so
far, until a round moves nothing.  The fuel is the mesh size, which
reaches the fixed point. -/
def growComponent : ℕ → List Triangle → List Triangle →
    List Triangle × List Triangle
  | 0, acc, rest => (acc, rest)
  | fuel + 1, acc, rest =>
    let newT := rest.filter (fun t => acc.any (fun a => sharesVertex a t))
    if newT.isEmpty then (acc, rest)
    else growComponent fuel (acc ++ newT)
      (rest.filter (fun t => !acc.any (fun a => sharesVertex a t)))

/-- `removeAllConnected`: strip every triangle connected to the vertex
`c` out of the mesh, returning the stripped component and the remaining
mesh. -/
def removeAllConnected (pm : List Triangle) (c : Coord3D) :
    List Triangle × List Triangle :=
  growComponent pm.length
    (pm.filter (fun t => Tri.containsVertex t c))
    (pm.filter (fun t => !Tri.containsVertex t c))

/-- The `pm.Peek()` / `IterateCoords` scan of the hierarchy loop: the
vertex of the mesh with minimal x coordinate (the first seen wins ties),
`none` on an empty mesh. -/
def minXVertex (pm : List Triangle) : Option Coord3D :=
  match pm.flatMap Tri.vertices with
  | [] => none
  | c :: rest => some (rest.foldl (fun mv c2 => if c2.x < mv.x then c2 else mv) c)

/-- `mesh.VertexSlice()[0]`: the probe vertex used by `insertLeaf`. -/
def firstVertex (m : List Triangle) : Coord3D :=
  (m.flatMap Tri.vertices).headD (V3.mk 0 0 0)

/-- The first-containing scan shared by `insertLeaf` and the root loop:
replace the first node accepted by `contns` with `ins` of it, `none`
when no node is accepted. -/
def insertScan (ins : MHier → MHier) (contns : MHier → Bool) :
    List MHier → Option (List MHier)
  | [] => none
  | c :: rest =>
    if contns c then some (ins c :: rest)
    else (insertScan ins contns rest).map (fun r => c :: r)

/-- `MeshHierarchy.insertLeaf`: descend into the first child whose solid
contains the probe vertex `v`, appending a new leaf when none does.  The
recursion is by fuel; any fuel at least the tree depth matches the Go
recursion, and the multiset content is independent of the fuel. -/
def insertLeafF (solidOf : List Triangle → Coord3D → Bool) :
    ℕ → MHier → List Triangle → Coord3D → MHier
  | 0, .node m cs, mesh, _ => .node m (cs ++ [.node mesh []])
  | fuel + 1, .node m cs, mesh, v =>
    match insertScan (fun c => insertLeafF solidOf fuel c mesh v)
        (fun c => solidOf c.mesh v) cs with
    | some cs2 => .node m cs2
    | none => .node m (cs ++ [.node mesh []])

/-- The `ClosedMeshLoop` of `misalignedMeshToHierarchy`, by fuel: while
the mesh is nonempty, strip the connected component of its minimal-x
vertex, then insert it below the first existing root whose solid contains
that vertex (a leaf, inserted at the probe vertex `VertexSlice()[0]`), or
append it as a new root. -/
def hierLoop (solidOf : List Triangle → Coord3D → Bool) :
    ℕ → List Triangle → List MHier → List MHier
  | 0, _, result => result
  | fuel + 1, pm, result =>
    match minXVertex pm with
    | none => result
    | some v =>
      let sr := removeAllConnected pm v
      let result2 :=
        match insertScan
            (fun c => insertLeafF solidOf fuel c sr.1 (firstVertex sr.1))
            (fun c => solidOf c.mesh v) result with
        | some r => r
        | none => result ++ [.node sr.1 []]
      hierLoop solidOf fuel sr.2 result2

/-- `misalignedMeshToHierarchy`: run the loop with enough fuel (every
iteration strips at least one triangle). -/
def misalignedMeshToHierarchy (solidOf : List Triangle → Coord3D → Bool)
    (m : List Triangle) : List MHier :=
  hierLoop solidOf (m.length + 1) m []

/-- `MeshToHierarchy`: panic when the mesh needs repair (`none`), else
misalign the mesh, build the hierarchy of the misaligned mesh, and map
every tree back through the dictionary inverse. -/
def MeshToHierarchy (solidOf : List Triangle → Coord3D → Bool)
    (rot : Coord3D → Coord3D) (m : List Triangle) : Option (List MHier) :=
  if Mesh.NeedsRepair m then none
  else
    some ((misalignedMeshToHierarchy solidOf (misalignMesh rot m).1).map
      (fun t => t.mapCoords (misalignMesh rot m).2))

/-- The triangle multiset of a hierarchy forest: the concatenation of
`FullMesh` over the roots. -/
def rootsFull (roots : List MHier) : List Triangle :=
  (roots.map MHier.FullMesh).flatten

/-- Swapping the two leading blocks of an append is a permutation. -/
theorem perm_append_swap {α : Type} (a b x : List α) :
    (a ++ (b ++ x)).Perm (b ++ (a ++ x)) := by
  rw [← List.append_assoc, ← List.append_assoc]
  exact List.Perm.append_right x List.perm_append_comm

/-- `FullMesh` on a node, with the `attach` recursion collapsed. -/
theorem fullMesh_node (m : List Triangle) (cs : List MHier) :
    (MHier.node m cs).FullMesh = m ++ (cs.map MHier.FullMesh).flatten := by
  rw [MHier.FullMesh]
  simp [List.attach_map_val]

/-- `mapCoords` on a node, with the `attach` recursion collapsed. -/
theorem mapCoords_node (f : Coord3D → Coord3D) (m : List Triangle)
    (cs : List MHier) :
    (MHier.node m cs).mapCoords f =
      .node (meshMapCoords f m) (cs.map (MHier.mapCoords f)) := by
  rw [MHier.mapCoords]
  simp [List.attach_map_val]

/-- The component growth moves triangles between the two sides but
preserves their multiset. -/
theorem growComponent_perm (fuel : ℕ) (acc rest : List Triangle) :
    ((growComponent fuel acc rest).1 ++ (growComponent fuel acc rest).2).Perm
      (acc ++ rest) := by
  induction fuel generalizing acc rest with
  | zero => exact List.Perm.refl _
  | succ fuel ih =>
    simp only [growComponent]
    by_cases h :
        (rest.filter (fun t => acc.any (fun a => sharesVertex a t))).isEmpty = true
    · rw [if_pos h]
    · rw [if_neg h]
      refine (ih _ _).trans ?_
      rw [List.append_assoc]
      exact List.Perm.append_left acc (List.filter_append_perm _ rest)

/-- The component never shrinks while growing. -/
theorem growComponent_fst_length (fuel : ℕ) (acc rest : List Triangle) :
    acc.length ≤ (growComponent fuel acc rest).1.length := by
  induction fuel generalizing acc rest with
  | zero => exact Nat.le_refl _
  | succ fuel ih =>
    simp only [growComponent]
    by_cases h :
        (rest.filter (fun t => acc.any (fun a => sharesVertex a t))).isEmpty = true
    · rw [if_pos h]
    · rw [if_neg h]
      refine le_trans ?_ (ih _ _)
      simp

/-- `removeAllConnected` splits the mesh into the stripped component and
the rest, preserving the triangle multiset. -/
theorem removeAllConnected_perm (pm : List Triangle) (c : Coord3D) :
    ((removeAllConnected pm c).1 ++ (removeAllConnected pm c).2).Perm pm :=
  (growComponent_perm _ _ _).trans (List.filter_append_perm _ pm)

/-- A vertex list membership gives the Boolean `containsVertex`. -/
theorem containsVertex_of_mem {t : Triangle} {v : Coord3D}
    (h : v ∈ Tri.vertices t) : Tri.containsVertex t v = true := by
  simp only [Tri.vertices, List.mem_cons, List.not_mem_nil, or_false] at h
  rcases h with h | h | h <;> simp [Tri.containsVertex, h]

/-- If some triangle of the mesh contains `c`, the stripped component is
nonempty. -/
theorem removeAllConnected_fst_ne_nil {pm : List Triangle} {c : Coord3D}
    (h : ∃ t ∈ pm, Tri.containsVertex t c = true) :
    (removeAllConnected pm c).1 ≠ [] := by
  obtain ⟨t, htm, htc⟩ := h
  have hmem : t ∈ pm.filter (fun t => Tri.containsVertex t c) :=
    List.mem_filter.mpr ⟨htm, htc⟩
  have h1 : 1 ≤ (pm.filter (fun t => Tri.containsVertex t c)).length :=
    List.length_pos.mpr (fun he => by rw [he] at hmem; simp at hmem)
  have h2 : 1 ≤ (removeAllConnected pm c).1.length :=
    le_trans h1 (growComponent_fst_length _ _ _)
  intro he
  rw [he] at h2
  simp at h2

/-- A strict-minimum fold starting from the head stays in the list. -/
theorem foldlMin_mem (rest : List Coord3D) (c : Coord3D) :
    rest.foldl (fun mv c2 => if c2.x < mv.x then c2 else mv) c ∈ c :: rest := by
  induction rest generalizing c with
  | nil => simp
  | cons a tl ih =>
    rw [List.foldl_cons]
    have := ih (if a.x < c.x then a else c)
    rcases List.mem_cons.mp this with h | h
    · rw [h]
      by_cases hx : a.x < c.x
      · rw [if_pos hx]
        exact List.mem_cons_of_mem _ (List.mem_cons_self _ _)
      · rw [if_neg hx]
        exact List.mem_cons_self _ _
    · exact List.mem_cons_of_mem _ (List.mem_cons_of_mem _ h)

/-- The minimal-x vertex is a vertex of some triangle of the mesh. -/
theorem minXVertex_mem {pm : List Triangle} {v : Coord3D}
    (h : minXVertex pm = some v) :
    ∃ t ∈ pm, Tri.containsVertex t v = true := by
  simp only [minXVertex] at h
  split at h
  · exact absurd h (by simp)
  · next c rest heq =>
    have hv : v ∈ c :: rest := by
      rw [← Option.some_inj.mp h]
      exact foldlMin_mem rest c
    rw [← heq] at hv
    obtain ⟨t, htm, htv⟩ := List.mem_flatMap.mp hv
    exact ⟨t, htm, containsVertex_of_mem htv⟩

/-- `minXVertex` fails only on the empty mesh. -/
theorem minXVertex_eq_none {pm : List Triangle}
    (h : minXVertex pm = none) : pm = [] := by
  simp only [minXVertex] at h
  split at h
  · next heq =>
    cases pm with
    | nil => rfl
    | cons t tl =>
      rw [List.flatMap_cons] at heq
      simp [Tri.vertices] at heq
  · exact absurd h (by simp)

/-- A successful `insertScan` replaces exactly the first accepted node. -/
theorem insertScan_some {ins : MHier → MHier} {contns : MHier → Bool} :
    ∀ {cs cs2 : List MHier}, insertScan ins contns cs = some cs2 →
      ∃ l1 c l2, cs = l1 ++ c :: l2 ∧ cs2 = l1 ++ ins c :: l2 := by
  intro cs
  induction cs with
  | nil => intro cs2 h; simp [insertScan] at h
  | cons c rest ih =>
    intro cs2 h
    simp only [insertScan] at h
    by_cases hc : contns c = true
    · rw [if_pos hc] at h
      exact ⟨[], c, rest, rfl, by simpa using h.symm⟩
    · rw [if_neg hc] at h
      rcases ho : insertScan ins contns rest with _ | r2
      · rw [ho] at h
        simp at h
      · rw [ho] at h
        have hcs : c :: r2 = cs2 := by simpa using h
        obtain ⟨l1, c1, l2, he1, he2⟩ := ih ho
        refine ⟨c :: l1, c1, l2, by rw [List.cons_append, ← he1], ?_⟩
        rw [← hcs, List.cons_append, ← he2]

/-- Appending a fresh leaf to a forest appends its mesh to the total. -/
theorem rootsFull_append_leaf (cs : List MHier) (mesh : List Triangle) :
    rootsFull (cs ++ [MHier.node mesh []]) = rootsFull cs ++ mesh := by
  simp [rootsFull, fullMesh_node]

/-- Replacing one node of a forest by a node whose full mesh gains `mesh`
gains exactly `mesh` in the total. -/
theorem rootsFull_replace {l1 l2 : List MHier} {c c2 : MHier}
    {mesh : List Triangle}
    (h : (MHier.FullMesh c2).Perm (mesh ++ c.FullMesh)) :
    (rootsFull (l1 ++ c2 :: l2)).Perm (mesh ++ rootsFull (l1 ++ c :: l2)) := by
  simp only [rootsFull, List.map_append, List.map_cons, List.flatten_append,
    List.flatten_cons]
  have h1 : ((l1.map MHier.FullMesh).flatten ++
      (MHier.FullMesh c2 ++ (l2.map MHier.FullMesh).flatten)).Perm
      ((l1.map MHier.FullMesh).flatten ++
        ((mesh ++ MHier.FullMesh c) ++ (l2.map MHier.FullMesh).flatten)) :=
    List.Perm.append_left _ (List.Perm.append_right _ h)
  refine h1.trans ?_
  rw [List.append_assoc mesh]
  exact perm_append_swap _ mesh _

/-- Appending a fresh leaf under a node adds exactly its mesh to the
node's full mesh. -/
theorem fullMesh_append_leaf (m mesh : List Triangle) (cs : List MHier) :
    ((MHier.node m (cs ++ [MHier.node mesh []])).FullMesh).Perm
      (mesh ++ (MHier.node m cs).FullMesh) := by
  rw [fullMesh_node, fullMesh_node,
    show ((cs ++ [MHier.node mesh []]).map MHier.FullMesh).flatten
      = rootsFull (cs ++ [MHier.node mesh []]) from rfl,
    rootsFull_append_leaf,
    show (cs.map MHier.FullMesh).flatten = rootsFull cs from rfl,
    ← List.append_assoc]
  exact List.perm_append_comm

/-- Replacing one child of a node by a child whose full mesh gains `mesh`
adds exactly `mesh` to the node's full mesh. -/
theorem fullMesh_node_replace {l1 l2 : List MHier} {c c2 : MHier}
    {mesh m : List Triangle}
    (h : (MHier.FullMesh c2).Perm (mesh ++ c.FullMesh)) :
    ((MHier.node m (l1 ++ c2 :: l2)).FullMesh).Perm
      (mesh ++ (MHier.node m (l1 ++ c :: l2)).FullMesh) := by
  rw [fullMesh_node, fullMesh_node]
  have h2 : (rootsFull (l1 ++ c2 :: l2)).Perm
      (mesh ++ rootsFull (l1 ++ c :: l2)) := rootsFull_replace h
  refine (List.Perm.append_left m h2).trans ?_
  exact perm_append_swap m mesh _

/-- `insertLeaf` adds exactly the inserted mesh to the full mesh of the
tree, whatever the fuel and wherever the leaf lands. -/
theorem fullMesh_insertLeafF (solidOf : List Triangle → Coord3D → Bool)
    (fuel : ℕ) (t : MHier) (mesh : List Triangle) (v : Coord3D) :
    ((insertLeafF solidOf fuel t mesh v).FullMesh).Perm (mesh ++ t.FullMesh) := by
  induction fuel generalizing t with
  | zero =>
    cases t with
    | node m cs =>
      simp only [insertLeafF]
      exact fullMesh_append_leaf m mesh cs
  | succ fuel ih =>
    cases t with
    | node m cs =>
      simp only [insertLeafF]
      rcases ho : insertScan (fun c => insertLeafF solidOf fuel c mesh v)
          (fun c => solidOf c.mesh v) cs with _ | cs2
      · exact fullMesh_append_leaf m mesh cs
      · obtain ⟨l1, c, l2, he1, he2⟩ := insertScan_some ho
        rw [he1]
        show (MHier.node m cs2).FullMesh.Perm _
        rw [he2]
        exact fullMesh_node_replace (ih c)

/-- The hierarchy loop distributes the whole remaining mesh over the
forest as a triangle multiset, given fuel beyond the mesh size. -/
theorem hierLoop_rootsFull (solidOf : List Triangle → Coord3D → Bool)
    (fuel : ℕ) (pm : List Triangle) (result : List MHier)
    (hfuel : pm.length < fuel) :
    (rootsFull (hierLoop solidOf fuel pm result)).Perm (pm ++ rootsFull result) := by
  induction fuel generalizing pm result with
  | zero => exact absurd hfuel (by omega)
  | succ fuel ih =>
    simp only [hierLoop]
    rcases hv : minXVertex pm with _ | v
    · rw [minXVertex_eq_none hv]
      exact List.Perm.refl _
    · have hex := minXVertex_mem hv
      have hne := removeAllConnected_fst_ne_nil hex
      have hperm := removeAllConnected_perm pm v
      have hlen2 : (removeAllConnected pm v).2.length < pm.length := by
        have hl := hperm.length_eq
        rw [List.length_append] at hl
        have hpos : 0 < (removeAllConnected pm v).1.length :=
          List.length_pos.mpr hne
        omega
      rcases hs : insertScan (fun c => insertLeafF solidOf fuel c
            (removeAllConnected pm v).1 (firstVertex (removeAllConnected pm v).1))
          (fun c => solidOf c.mesh v) result with _ | r
      · simp only [hs]
        refine (ih _ _ (by omega)).trans ?_
        rw [rootsFull_append_leaf]
        refine (List.Perm.append_left _ List.perm_append_comm).trans ?_
        rw [← List.append_assoc]
        exact List.Perm.append_right _ (List.perm_append_comm.trans hperm)
      · simp only [hs]
        obtain ⟨l1, c, l2, he1, he2⟩ := insertScan_some hs
        refine (ih _ _ (by omega)).trans ?_
        have hr : (rootsFull r).Perm
            ((removeAllConnected pm v).1 ++ rootsFull result) := by
          rw [he2, he1]
          exact rootsFull_replace (fullMesh_insertLeafF _ _ _ _ _)
        refine (List.Perm.append_left _ hr).trans ?_
        rw [← List.append_assoc]
        exact List.Perm.append_right _ (List.perm_append_comm.trans hperm)

/-- In the store fold building the inverse dictionary, an injectively
rotated vertex is looked up exactly. -/
theorem foldStoreRot_lookup (rot : Coord3D → Coord3D) :
    ∀ (l : List Coord3D) (mp : List (Coord3D × Coord3D)) (c : Coord3D),
      (∀ c2 ∈ l, rot c2 = rot c → c2 = c) →
      (c ∈ l ∨ alLookup mp (rot c) = some c) →
      alLookup (l.foldl (fun mp2 c2 => alStore mp2 (rot c2) c2) mp) (rot c)
        = some c := by
  intro l
  induction l with
  | nil =>
    intro mp c _ h
    rcases h with h | h
    · simp at h
    · exact h
  | cons a tl ih =>
    intro mp c hinj h
    rw [List.foldl_cons]
    by_cases hac : rot a = rot c
    · have ha : a = c := hinj a (List.mem_cons_self _ _) hac
      refine ih _ c (fun c2 hc2 => hinj c2 (List.mem_cons_of_mem _ hc2)) (Or.inr ?_)
      rw [ha, alLookup_alStore, if_pos rfl]
    · rcases h with h | h
      · rcases List.mem_cons.mp h with h1 | h1
        · exact absurd (by rw [h1]) hac
        · exact ih _ c (fun c2 hc2 => hinj c2 (List.mem_cons_of_mem _ hc2))
            (Or.inl h1)
      · refine ih _ c (fun c2 hc2 => hinj c2 (List.mem_cons_of_mem _ hc2)) (Or.inr ?_)
        rw [alLookup_alStore, if_neg hac]
        exact h

/-- The dictionary inverse of `misalignMesh` restores every vertex of the
input mesh exactly, when the rotation is injective on the vertices. -/
theorem misalignMesh_inv_exact (rot : Coord3D → Coord3D) (m : List Triangle)
    (hinj : ∀ c1 ∈ m.flatMap Tri.vertices, ∀ c2 ∈ m.flatMap Tri.vertices,
      rot c1 = rot c2 → c1 = c2)
    {c : Coord3D} (hc : c ∈ m.flatMap Tri.vertices) :
    (misalignMesh rot m).2 (rot c) = c := by
  show (alLookup (misalignInv rot m) (rot c)).getD _ = c
  rw [misalignInv, foldStoreRot_lookup rot _ [] c
    (fun c2 hc2 => hinj c2 hc2 c hc) (Or.inl hc)]
  rfl

/-- `FullMesh` commutes with `MapCoords`. -/
theorem fullMesh_mapCoords (f : Coord3D → Coord3D) (t : MHier) :
    (t.mapCoords f).FullMesh = meshMapCoords f t.FullMesh := by
  induction t using MHier.FullMesh.induct with
  | _ m cs ih =>
    rw [mapCoords_node, fullMesh_node, fullMesh_node]
    have hmaps : cs.map (fun c => ((c.mapCoords f).FullMesh))
        = cs.map (fun c => meshMapCoords f c.FullMesh) :=
      List.map_congr_left (fun c hc => ih ⟨c, hc⟩)
    simp only [meshMapCoords, List.map_append, List.map_flatten, List.map_map,
      Function.comp_def] at hmaps ⊢
    rw [hmaps]

/-- `rootsFull` commutes with mapping coordinates over the forest. -/
theorem rootsFull_mapCoords (f : Coord3D → Coord3D) (roots : List MHier) :
    rootsFull (roots.map (fun t => t.mapCoords f))
      = meshMapCoords f (rootsFull roots) := by
  simp only [rootsFull, List.map_map, Function.comp_def]
  have hmaps : roots.map (fun t => ((t.mapCoords f).FullMesh))
      = roots.map (fun t => meshMapCoords f t.FullMesh) :=
    List.map_congr_left (fun t _ => fullMesh_mapCoords f t)
  rw [hmaps]
  simp only [meshMapCoords, List.map_flatten, List.map_map, Function.comp_def]

/-- C4: for a mesh accepted by `MeshToHierarchy` (no repair needed), with
the misaligning rotation injective on the mesh vertices, the
concatenation of `FullMesh` over all returned hierarchy roots is a
permutation of the input mesh: the triangle multisets agree and every
coordinate is restored exactly through the dictionary inverse. -/
theorem c4_meshToHierarchy_fullMesh_partition
    (solidOf : List Triangle → Coord3D → Bool) (rot : Coord3D → Coord3D)
    (m : List Triangle)
    (hinj : ∀ c1 ∈ m.flatMap Tri.vertices, ∀ c2 ∈ m.flatMap Tri.vertices,
      rot c1 = rot c2 → c1 = c2)
    (hier : List MHier) (hh : MeshToHierarchy solidOf rot m = some hier) :
    (rootsFull hier).Perm m := by
  rw [MeshToHierarchy] at hh
  by_cases hrep : Mesh.NeedsRepair m = true
  · rw [if_pos hrep] at hh
    exact absurd hh (by simp)
  · rw [if_neg hrep] at hh
    have hh2 := Option.some_inj.mp hh
    rw [← hh2, rootsFull_mapCoords]
    have hloop : (rootsFull (misalignedMeshToHierarchy solidOf
        (meshMapCoords rot m))).Perm (meshMapCoords rot m) := by
      have h0 := hierLoop_rootsFull solidOf ((meshMapCoords rot m).length + 1)
        (meshMapCoords rot m) [] (by omega)
      simpa [rootsFull] using h0
    have hvert : ∀ t ∈ m, ∀ p ∈ Tri.vertices t,
        (misalignMesh rot m).2 (rot p) = p :=
      fun t ht p hp =>
        misalignMesh_inv_exact rot m hinj (List.mem_flatMap.mpr ⟨t, ht, hp⟩)
    have hrestore : List.map (fun t => (⟨(misalignMesh rot m).2 t.p0,
          (misalignMesh rot m).2 t.p1, (misalignMesh rot m).2 t.p2⟩ : Triangle))
        (meshMapCoords rot m) = m := by
      simp only [meshMapCoords, List.map_map, Function.comp_def]
      have hid : ∀ t ∈ m, (⟨(misalignMesh rot m).2 (rot t.p0),
          (misalignMesh rot m).2 (rot t.p1),
          (misalignMesh rot m).2 (rot t.p2)⟩ : Triangle) = t := by
        intro t ht
        cases t with
        | mk p0 p1 p2 =>
          have h0 := hvert _ ht p0 (by simp [Tri.vertices])
          have h1 := hvert _ ht p1 (by simp [Tri.vertices])
          have h2 := hvert _ ht p2 (by simp [Tri.vertices])
          simp [h0, h1, h2]
      rw [List.map_congr_left hid]
      exact List.map_id m
    refine (List.Perm.map (fun t => (⟨(misalignMesh rot m).2 t.p0,
      (misalignMesh rot m).2 t.p1, (misalignMesh rot m).2 t.p2⟩ : Triangle))
      hloop).trans ?_
    rw [hrestore]

/-- C4 witness: the partition theorem applied to a concrete tetrahedron
with the identity misalignment and a solid oracle that contains
nothing. -/
theorem c4_meshToHierarchy_fullMesh_partition_witness :
    (rootsFull [MHier.node
        [⟨⟨0, 0, 0⟩, ⟨1, 0, 0⟩, ⟨0, 1, 0⟩⟩, ⟨⟨0, 0, 0⟩, ⟨1, 0, 0⟩, ⟨0, 0, 1⟩⟩,
         ⟨⟨0, 0, 0⟩, ⟨0, 1, 0⟩, ⟨0, 0, 1⟩⟩, ⟨⟨1, 0, 0⟩, ⟨0, 1, 0⟩, ⟨0, 0, 1⟩⟩] []]).Perm
      [⟨⟨0, 0, 0⟩, ⟨1, 0, 0⟩, ⟨0, 1, 0⟩⟩, ⟨⟨0, 0, 0⟩, ⟨1, 0, 0⟩, ⟨0, 0, 1⟩⟩,
       ⟨⟨0, 0, 0⟩, ⟨0, 1, 0⟩, ⟨0, 0, 1⟩⟩, ⟨⟨1, 0, 0⟩, ⟨0, 1, 0⟩, ⟨0, 0, 1⟩⟩] :=
  c4_meshToHierarchy_fullMesh_partition (fun _ _ => false) id
    [⟨⟨0, 0, 0⟩, ⟨1, 0, 0⟩, ⟨0, 1, 0⟩⟩, ⟨⟨0, 0, 0⟩, ⟨1, 0, 0⟩, ⟨0, 0, 1⟩⟩,
     ⟨⟨0, 0, 0⟩, ⟨0, 1, 0⟩, ⟨0, 0, 1⟩⟩, ⟨⟨1, 0, 0⟩, ⟨0, 1, 0⟩, ⟨0, 0, 1⟩⟩]
    (fun c1 _ c2 _ h => h)
    [MHier.node
        [⟨⟨0, 0, 0⟩, ⟨1, 0, 0⟩, ⟨0, 1, 0⟩⟩, ⟨⟨0, 0, 0⟩, ⟨1, 0, 0⟩, ⟨0, 0, 1⟩⟩,
         ⟨⟨0, 0, 0⟩, ⟨0, 1, 0⟩, ⟨0, 0, 1⟩⟩, ⟨⟨1, 0, 0⟩, ⟨0, 1, 0⟩, ⟨0, 0, 1⟩⟩] []]
    (by norm_num [MeshToHierarchy, misalignedMeshToHierarchy, hierLoop,
      minXVertex, removeAllConnected, growComponent, sharesVertex, insertScan,
      misalignMesh, misalignInv, meshMapCoords, firstVertex, insertLeafF,
      mapCoords_node, Mesh.NeedsRepair, Mesh.find2, Tri.edgeList,
      Tri.containsVertex, Tri.vertices, alStore, alLookup, V3.mk.injEq])

end Hierarchy

section DualContouring

/-- `Coord3D.Normalize`, over `ℝ` since a square root is taken: the unit
vector in the direction of `v`. -/
noncomputable def V3.Normalize (v : V3 ℝ) : V3 ℝ :=
  V3.scale v (1 / Real.sqrt (V3.dot v v))

/-- Modelled from the spec: `Triangle.Normal` (the file defining the
`Triangle` methods is not under src/) is the unit cross product of the
two leading edges of the triangle. -/
noncomputable def Tri.Normal (t : Tri ℝ) : V3 ℝ :=
  V3.Normalize (V3.cross (V3.sub t.p1 t.p0) (V3.sub t.p2 t.p0))

/-- The `addEdge` triangulation step of `DualContouring.Mesh` (part_003):
build both diagonals of the quad over the four adjacent cube vertices
(`t1a, t2a` on the `vs1-vs2` diagonal, `t1b, t2b` on the `vs0-vs3` one
after the four-way swap), take the `b` pair exactly when `dotA > dotB`,
then flip both triangles when the first normal disagrees with the edge
intersection normal. -/
noncomputable def addEdge (vs0 vs1 vs2 vs3 eNormal : V3 ℝ) : Tri ℝ × Tri ℝ :=
  let t1a : Tri ℝ := ⟨vs0, vs1, vs2⟩
  let t2a : Tri ℝ := ⟨vs1, vs3, vs2⟩
  let t1b : Tri ℝ := ⟨vs1, vs3, vs0⟩
  let t2b : Tri ℝ := ⟨vs3, vs2, vs0⟩
  let dotA := V3.dot (Tri.Normal t1a) (Tri.Normal t2a)
  let dotB := V3.dot (Tri.Normal t1b) (Tri.Normal t2b)
  let tt := if dotA > dotB then (t1b, t2b) else (t1a, t2a)
  if V3.dot (Tri.Normal tt.1) eNormal < 0 then
    (⟨tt.1.p1, tt.1.p0, tt.1.p2⟩, ⟨tt.2.p1, tt.2.p0, tt.2.p2⟩)
  else tt

/-- Normalizing a negated vector negates the normalization. -/
theorem normalize_neg (w : V3 ℝ) :
    V3.Normalize (V3.scale w (-1)) = V3.scale (V3.Normalize w) (-1) := by
  simp only [V3.Normalize, V3.scale, V3.dot]
  have hd : w.x * -1 * (w.x * -1) + w.y * -1 * (w.y * -1) + w.z * -1 * (w.z * -1)
      = w.x * w.x + w.y * w.y + w.z * w.z := by ring
  rw [hd]
  simp only [V3.mk.injEq]
  refine ⟨by ring, by ring, by ring⟩

/-- Swapping the first two vertices of a triangle negates its normal. -/
theorem triNormal_flip (a b c : V3 ℝ) :
    Tri.Normal ⟨b, a, c⟩ = V3.scale (Tri.Normal ⟨a, b, c⟩) (-1) := by
  have hcross : V3.cross (V3.sub a b) (V3.sub c b)
      = V3.scale (V3.cross (V3.sub b a) (V3.sub c a)) (-1) := by
    simp only [V3.cross, V3.sub, V3.scale, V3.mk.injEq]
    refine ⟨by ring, by ring, by ring⟩
  show V3.Normalize (V3.cross (V3.sub a b) (V3.sub c b)) = _
  rw [hcross, normalize_neg]
  rfl

/-- Negating both arguments leaves the dot product unchanged. -/
theorem dot_scale_neg (v w : V3 ℝ) :
    V3.dot (V3.scale v (-1)) (V3.scale w (-1)) = V3.dot v w := by
  simp only [V3.dot, V3.scale]
  ring

/-- C2 (amended): the quad of an active edge is triangulated along the
diagonal whose two triangle normals have the SMALLER dot product, ties
going to the `vs1-vs2` diagonal (the code comment's sharper angle); the
spec's "larger dot product" is the opposite choice.  The final
orientation flip negates both normals and leaves their dot product
unchanged. -/
theorem c2_dualContouring_sharper_diagonal (vs0 vs1 vs2 vs3 eN : V3 ℝ) :
    V3.dot (Tri.Normal (addEdge vs0 vs1 vs2 vs3 eN).1)
        (Tri.Normal (addEdge vs0 vs1 vs2 vs3 eN).2)
      = min (V3.dot (Tri.Normal ⟨vs0, vs1, vs2⟩) (Tri.Normal ⟨vs1, vs3, vs2⟩))
          (V3.dot (Tri.Normal ⟨vs1, vs3, vs0⟩) (Tri.Normal ⟨vs3, vs2, vs0⟩)) := by
  simp only [addEdge]
  by_cases hab : V3.dot (Tri.Normal ⟨vs0, vs1, vs2⟩) (Tri.Normal ⟨vs1, vs3, vs2⟩)
      > V3.dot (Tri.Normal ⟨vs1, vs3, vs0⟩) (Tri.Normal ⟨vs3, vs2, vs0⟩)
  · rw [if_pos hab, min_eq_right (le_of_lt hab)]
    by_cases hflip : V3.dot (Tri.Normal (⟨vs1, vs3, vs0⟩ : Tri ℝ)) eN < 0
    · rw [if_pos hflip]
      show V3.dot (Tri.Normal ⟨vs3, vs1, vs0⟩) (Tri.Normal ⟨vs2, vs3, vs0⟩) = _
      rw [triNormal_flip vs1 vs3 vs0, triNormal_flip vs3 vs2 vs0, dot_scale_neg]
    · rw [if_neg hflip]
  · rw [if_neg hab, min_eq_left (not_lt.mp hab)]
    by_cases hflip : V3.dot (Tri.Normal (⟨vs0, vs1, vs2⟩ : Tri ℝ)) eN < 0
    · rw [if_pos hflip]
      show V3.dot (Tri.Normal ⟨vs1, vs0, vs2⟩) (Tri.Normal ⟨vs3, vs1, vs2⟩) = _
      rw [triNormal_flip vs0 vs1 vs2, triNormal_flip vs1 vs3 vs2, dot_scale_neg]
    · rw [if_neg hflip]

/-- C2 counterexample: a concrete quad on which `dotA > dotB` holds and
`addEdge` returns the `b` pair — the diagonal whose normal dot product is
the smaller one — contradicting the spec's "whichever produces the larger
dot product between the two triangle normals". -/
theorem c2_dualContouring_larger_counterexample :
    V3.dot (Tri.Normal ⟨⟨0, 0, 0⟩, ⟨1, 0, 0⟩, ⟨0, 1, 0⟩⟩)
        (Tri.Normal ⟨⟨1, 0, 0⟩, ⟨1, 1, 1⟩, ⟨0, 1, 0⟩⟩)
      > V3.dot (Tri.Normal ⟨⟨1, 0, 0⟩, ⟨1, 1, 1⟩, ⟨0, 0, 0⟩⟩)
        (Tri.Normal ⟨⟨1, 1, 1⟩, ⟨0, 1, 0⟩, ⟨0, 0, 0⟩⟩) ∧
    addEdge ⟨0, 0, 0⟩ ⟨1, 0, 0⟩ ⟨0, 1, 0⟩ ⟨1, 1, 1⟩ ⟨0, 0, 0⟩
      = (⟨⟨1, 0, 0⟩, ⟨1, 1, 1⟩, ⟨0, 0, 0⟩⟩, ⟨⟨1, 1, 1⟩, ⟨0, 1, 0⟩, ⟨0, 0, 0⟩⟩) := by
  have h3pos : (0 : ℝ) < Real.sqrt 3 := Real.sqrt_pos.mpr (by norm_num)
  have h32 : Real.sqrt 3 < 2 := by
    have h4 : (2 : ℝ) = Real.sqrt 4 := by
      rw [show (4 : ℝ) = 2 ^ 2 by norm_num, Real.sqrt_sq (by norm_num)]
    rw [h4]
    exact Real.sqrt_lt_sqrt (by norm_num) (by norm_num)
  have hA : V3.dot (Tri.Normal ⟨⟨0, 0, 0⟩, ⟨1, 0, 0⟩, ⟨0, 1, 0⟩⟩)
      (Tri.Normal ⟨⟨1, 0, 0⟩, ⟨1, 1, 1⟩, ⟨0, 1, 0⟩⟩) = 1 / Real.sqrt 3 := by
    simp only [Tri.Normal, V3.Normalize, V3.cross, V3.sub, V3.dot, V3.scale]
    norm_num [Real.sqrt_one]
  have hB : V3.dot (Tri.Normal ⟨⟨1, 0, 0⟩, ⟨1, 1, 1⟩, ⟨0, 0, 0⟩⟩)
      (Tri.Normal ⟨⟨1, 1, 1⟩, ⟨0, 1, 0⟩, ⟨0, 0, 0⟩⟩) = 1 / 2 := by
    simp only [Tri.Normal, V3.Normalize, V3.cross, V3.sub, V3.dot, V3.scale]
    norm_num
    rw [← mul_inv, Real.mul_self_sqrt (by norm_num)]
    norm_num
  have h1 : V3.dot (Tri.Normal ⟨⟨0, 0, 0⟩, ⟨1, 0, 0⟩, ⟨0, 1, 0⟩⟩)
        (Tri.Normal ⟨⟨1, 0, 0⟩, ⟨1, 1, 1⟩, ⟨0, 1, 0⟩⟩)
      > V3.dot (Tri.Normal ⟨⟨1, 0, 0⟩, ⟨1, 1, 1⟩, ⟨0, 0, 0⟩⟩)
        (Tri.Normal ⟨⟨1, 1, 1⟩, ⟨0, 1, 0⟩, ⟨0, 0, 0⟩⟩) := by
    rw [hA, hB]
    exact one_div_lt_one_div_of_lt h3pos h32
  refine ⟨h1, ?_⟩
  simp only [addEdge]
  rw [if_pos h1]
  have hz : V3.dot (Tri.Normal
      ((⟨⟨1, 0, 0⟩, ⟨1, 1, 1⟩, ⟨0, 0, 0⟩⟩, ⟨⟨1, 1, 1⟩, ⟨0, 1, 0⟩, ⟨0, 0, 0⟩⟩) :
        Tri ℝ × Tri ℝ).1) ⟨0, 0, 0⟩ = 0 := by
    simp [V3.dot]
  rw [hz, if_neg (lt_irrefl (0 : ℝ))]

end DualContouring

end Model3D
